import Mathlib

/-!
Verification of the state-reconciliation core of the grafana-cloud-k6
prometheus exporter.

The Go source is shallowly embedded:
* Go maps become association lists (`List (κ × α)`) with lookup / replace /
  erase operations mirroring Go map semantics (`m[k]`, `m[k] = v`,
  `delete(m, k)`).
* `time.Time` / `time.Duration` become `Int` (nanosecond ticks); each call to
  `time.Now()` in the source becomes an explicit `now : Int` argument.
* `float64` fields that the code merely stores and forwards (`VUH`) are
  carried as `Int`; no claim performs floating-point arithmetic on them.
* Pointer-typed optional fields (`*time.Time`, `*string`) become `Option` at
  the value level.  A separate heap-level model (further below) makes pointer
  identity explicit where a claim is about aliasing.
-/

namespace GK6

/-- Association-list lookup, mirroring a Go map read `m[k]`: the first entry
with the given key wins (well-formed stores have at most one). -/
def alookup {κ α : Type} [DecidableEq κ] (k : κ) : List (κ × α) → Option α
  | [] => none
  | p :: l => if p.1 = k then some p.2 else alookup k l

/-- Association-list erase, mirroring Go `delete(m, k)`. -/
def aerase {κ α : Type} [DecidableEq κ] (k : κ) : List (κ × α) → List (κ × α)
  | [] => []
  | p :: l => if p.1 = k then aerase k l else p :: aerase k l

/-- Association-list write, mirroring Go `m[k] = v`: replace in place when the
key is present, append otherwise. -/
def aset {κ α : Type} [DecidableEq κ] (k : κ) (v : α) : List (κ × α) → List (κ × α)
  | [] => [(k, v)]
  | p :: l => if p.1 = k then (k, v) :: l else p :: aset k v l

/-- Key distinctness of an association list (Go maps have unique keys). -/
def akeysNodup {κ α : Type} (l : List (κ × α)) : Prop :=
  (l.map Prod.fst).Nodup

theorem alookup_append {κ α : Type} [DecidableEq κ] (k : κ) (l₁ l₂ : List (κ × α)) :
    alookup k (l₁ ++ l₂) = ((alookup k l₁).or (alookup k l₂)) := by
  induction l₁ with
  | nil => simp [alookup]
  | cons p l ih =>
      by_cases h : p.1 = k <;> simp [alookup, h, ih]

theorem alookup_eq_none_of_not_mem_keys {κ α : Type} [DecidableEq κ] {k : κ}
    {l : List (κ × α)} (h : k ∉ l.map Prod.fst) : alookup k l = none := by
  induction l with
  | nil => rfl
  | cons p l ih =>
      simp only [List.map_cons, List.mem_cons] at h
      push_neg at h
      simp [alookup, Ne.symm h.1, ih h.2]

theorem alookup_isSome_iff_mem_keys {κ α : Type} [DecidableEq κ] (k : κ)
    (l : List (κ × α)) : (alookup k l).isSome ↔ k ∈ l.map Prod.fst := by
  induction l with
  | nil => simp [alookup]
  | cons p l ih =>
      by_cases h : p.1 = k
      · simp [alookup, h]
      · simp [alookup, h, ih, Ne.symm h]

theorem alookup_aerase_self {κ α : Type} [DecidableEq κ] (k : κ) (l : List (κ × α)) :
    alookup k (aerase k l) = none := by
  induction l with
  | nil => rfl
  | cons p l ih =>
      by_cases h : p.1 = k <;> simp [aerase, alookup, h, ih]

theorem alookup_aerase_of_ne {κ α : Type} [DecidableEq κ] {k j : κ} (hne : j ≠ k)
    (l : List (κ × α)) : alookup j (aerase k l) = alookup j l := by
  induction l with
  | nil => rfl
  | cons p l ih =>
      by_cases h : p.1 = k
      · have hpj : p.1 ≠ j := by rw [h]; exact Ne.symm hne
        simp [aerase, alookup, h, hpj, ih, Ne.symm hne]
      · by_cases hj : p.1 = j <;> simp [aerase, alookup, h, hj, ih, hne, Ne.symm hne]

theorem aerase_sublist {κ α : Type} [DecidableEq κ] (k : κ) (l : List (κ × α)) :
    (aerase k l).Sublist l := by
  induction l with
  | nil => simp [aerase]
  | cons p l ih =>
      by_cases h : p.1 = k
      · simpa [aerase, h] using ih.cons p
      · simpa [aerase, h] using ih.cons₂ p

theorem aerase_keysNodup {κ α : Type} [DecidableEq κ] (k : κ) {l : List (κ × α)}
    (h : akeysNodup l) : akeysNodup (aerase k l) :=
  (List.Sublist.map Prod.fst (aerase_sublist k l)).nodup h

theorem aerase_of_none {κ α : Type} [DecidableEq κ] {k : κ} {l : List (κ × α)}
    (h : alookup k l = none) : aerase k l = l := by
  induction l with
  | nil => rfl
  | cons p l ih =>
      by_cases hp : p.1 = k
      · simp [alookup, hp] at h
      · simp only [alookup, hp, if_false] at h
        simp [aerase, hp, ih h]

theorem alookup_aset_self {κ α : Type} [DecidableEq κ] (k : κ) (v : α) (l : List (κ × α)) :
    alookup k (aset k v l) = some v := by
  induction l with
  | nil => simp [aset, alookup]
  | cons p l ih =>
      by_cases h : p.1 = k <;> simp [aset, alookup, h, ih]

theorem alookup_aset_of_ne {κ α : Type} [DecidableEq κ] {k j : κ} (hne : j ≠ k) (v : α)
    (l : List (κ × α)) : alookup j (aset k v l) = alookup j l := by
  induction l with
  | nil => simp [aset, alookup, Ne.symm hne]
  | cons p l ih =>
      by_cases h : p.1 = k
      · have hpj : p.1 ≠ j := by rw [h]; exact Ne.symm hne
        simp [aset, alookup, h, hpj, Ne.symm hne]
      · by_cases hj : p.1 = j <;> simp [aset, alookup, h, hj, ih, hne, Ne.symm hne]

theorem aset_keys_of_isSome {κ α : Type} [DecidableEq κ] {k : κ} (v : α)
    {l : List (κ × α)} (h : (alookup k l).isSome) :
    (aset k v l).map Prod.fst = l.map Prod.fst := by
  induction l with
  | nil => simp [alookup] at h
  | cons p l ih =>
      by_cases hp : p.1 = k
      · simp [aset, hp]
      · simp only [alookup, hp, if_false] at h
        simp [aset, hp, ih h]

theorem aset_keys_of_none {κ α : Type} [DecidableEq κ] {k : κ} (v : α)
    {l : List (κ × α)} (h : alookup k l = none) :
    (aset k v l).map Prod.fst = l.map Prod.fst ++ [k] := by
  induction l with
  | nil => simp [aset]
  | cons p l ih =>
      by_cases hp : p.1 = k
      · simp [alookup, hp] at h
      · simp only [alookup, hp, if_false] at h
        simp [aset, hp, ih h]

theorem aset_keysNodup {κ α : Type} [DecidableEq κ] (k : κ) (v : α) {l : List (κ × α)}
    (h : akeysNodup l) : akeysNodup (aset k v l) := by
  unfold akeysNodup at *
  by_cases hs : (alookup k l).isSome
  · rw [aset_keys_of_isSome v hs]; exact h
  · have hn : alookup k l = none := Option.not_isSome_iff_eq_none.mp hs
    rw [aset_keys_of_none v hn, List.nodup_append]
    refine ⟨h, List.nodup_singleton k, ?_⟩
    intro a ha hk
    simp only [List.mem_singleton] at hk
    subst hk
    exact hs ((alookup_isSome_iff_mem_keys a l).mpr ha)

theorem aset_length_of_isSome {κ α : Type} [DecidableEq κ] (k : κ) (v : α)
    {l : List (κ × α)} (h : (alookup k l).isSome) : (aset k v l).length = l.length := by
  induction l with
  | nil => simp [alookup] at h
  | cons p l ih =>
      by_cases hp : p.1 = k
      · simp [aset, hp]
      · simp only [alookup, hp, if_false] at h
        simp [aset, hp, ih h]

theorem aset_length_of_none {κ α : Type} [DecidableEq κ] (k : κ) (v : α)
    {l : List (κ × α)} (h : alookup k l = none) : (aset k v l).length = l.length + 1 := by
  induction l with
  | nil => simp [aset]
  | cons p l ih =>
      by_cases hp : p.1 = k
      · simp [alookup, hp] at h
      · simp only [alookup, hp, if_false] at h
        simp [aset, hp, ih h]

theorem aerase_length_of_isSome {κ α : Type} [DecidableEq κ] {k : κ} {l : List (κ × α)}
    (hn : akeysNodup l) (h : (alookup k l).isSome) :
    (aerase k l).length + 1 = l.length := by
  induction l with
  | nil => simp [alookup] at h
  | cons p l ih =>
      unfold akeysNodup at hn
      simp only [List.map_cons, List.nodup_cons] at hn
      by_cases hp : p.1 = k
      · have htail : alookup k l = none := by
          apply alookup_eq_none_of_not_mem_keys
          rw [← hp]; exact hn.1
        simp [aerase, hp, aerase_of_none htail]
      · simp only [alookup, hp, if_false] at h
        have := ih hn.2 h
        simp only [aerase, hp, if_false, List.length_cons]
        omega

/-! ## Data model of `internal/state` (embedded from `manager.go`) -/

/-- TestRunState tracks the state of a test run (struct `state.TestRunState`).
`StatusHistory` is the Go `map[string]time.Time` (status → first seen at),
embedded as an association list. -/
structure TestRunState where
  TestRunID : Int
  TestID : Int
  ProjectID : Int
  TestName : String
  CurrentStatus : String
  StatusHistory : List (String × Int)
  LastUpdated : Int
  Created : Int
  Ended : Option Int
  Result : Option String
  StartedBy : String
  VUH : Int
  deriving DecidableEq, Repr

/-- The manager's `states` map (`map[int]*TestRunState`), value level. -/
abbrev Store := List (Int × TestRunState)

/-- IsTerminalStatus returns true if the status represents a terminal state
(from `k6client/types.go`). -/
def IsTerminalStatus (status : String) : Bool :=
  status == "completed" || status == "aborted"

/-- UpdateTestRun updates or creates a test run state (from `manager.go`).
`now` stands for the `time.Now()` the call observes. -/
def UpdateTestRun (s : Store) (st : TestRunState) (now : Int) : Store :=
  -- Skip storing completed or aborted runs
  if st.CurrentStatus = "completed" ∨ st.CurrentStatus = "aborted" then
    -- If we already have this run in state, remove it
    if (alookup st.TestRunID s).isSome then aerase st.TestRunID s else s
  else
    match alookup st.TestRunID s with
    | none =>
        -- Initialize status history
        let st := { st with
          StatusHistory := [(st.CurrentStatus, st.Created)]
          LastUpdated := now }
        aset st.TestRunID st s
    | some existing =>
        -- Update existing state; record new status if we haven't seen it
        let existing := { existing with
          CurrentStatus := st.CurrentStatus
          LastUpdated := now
          Ended := st.Ended
          Result := st.Result
          VUH := st.VUH
          StatusHistory :=
            if (alookup st.CurrentStatus existing.StatusHistory).isSome then
              existing.StatusHistory
            else
              existing.StatusHistory ++ [(st.CurrentStatus, now)] }
        aset st.TestRunID existing s

/-- RecordTestRunStatus records a test run status and returns true if this is
a new status (from `manager.go`).  Returns the boolean result paired with the
store after the call. -/
def RecordTestRunStatus (s : Store) (runID : Int) (status : String) (now : Int) :
    Bool × Store :=
  match alookup runID s with
  | none =>
      -- a new test run we haven't seen before: only logs, no store write
      (true, s)
  | some st =>
      if (alookup status st.StatusHistory).isSome then
        (false, s)
      else
        (true, aset runID { st with
          StatusHistory := st.StatusHistory ++ [(status, now)]
          CurrentStatus := status
          LastUpdated := now } s)

/-- GetTestRunState returns the state of a test run (value level: the Go code
returns a copy; copying is the identity on values). -/
def GetTestRunState (s : Store) (runID : Int) : Option TestRunState :=
  alookup runID s

/-- GetAllStates returns all test run states. -/
def GetAllStates (s : Store) : List TestRunState :=
  s.map Prod.snd

/-- GetStateCount returns the number of tracked test runs. -/
def GetStateCount (s : Store) : Nat :=
  s.length

/-- HasSeenStatus checks if a specific status was recorded for a test run. -/
def HasSeenStatus (s : Store) (runID : Int) (status : String) : Bool :=
  match alookup runID s with
  | none => false
  | some st => (alookup status st.StatusHistory).isSome

/-- GetStatusCounts returns counts of test runs by current status. -/
def GetStatusCounts (s : Store) (status : String) : Nat :=
  s.countP (fun p => p.2.CurrentStatus == status)

/-- The staleness predicate of `Manager.Cleanup`: remove when the run ended
before the cutoff, or was last updated before the cutoff. -/
def cleanupShouldRemove (cutoff : Int) (st : TestRunState) : Bool :=
  (match st.Ended with
   | some e => decide (e < cutoff)
   | none => false) ||
  decide (st.LastUpdated < cutoff)

/-- Cleanup removes old test run states; returns the number removed paired
with the remaining store (from `manager.go`). -/
def Cleanup (s : Store) (maxAge : Int) (now : Int) : Nat × Store :=
  let cutoff := now - maxAge
  ((s.filter (fun p => cleanupShouldRemove cutoff p.2)).length,
   s.filter (fun p => ! cleanupShouldRemove cutoff p.2))

/-- CleanupCompletedRuns removes all completed and aborted test runs from
state; returns the number removed paired with the remaining store. -/
def CleanupCompletedRuns (s : Store) : Nat × Store :=
  ((s.filter (fun p => p.2.CurrentStatus == "completed" || p.2.CurrentStatus == "aborted")).length,
   s.filter (fun p => ! (p.2.CurrentStatus == "completed" || p.2.CurrentStatus == "aborted")))

/-- Store well-formedness: run ids are distinct (Go map keys are unique) and
each record's status-history keys are distinct. -/
def StoreWf (s : Store) : Prop :=
  akeysNodup s ∧ ∀ p ∈ s, akeysNodup p.2.StatusHistory

theorem mem_aset {κ α : Type} [DecidableEq κ] {k : κ} {v : α} {l : List (κ × α)} {q : κ × α}
    (h : q ∈ aset k v l) : q = (k, v) ∨ q ∈ l := by
  induction l with
  | nil => simpa [aset] using h
  | cons p l ih =>
      by_cases hp : p.1 = k
      · simp only [aset, hp, if_true, List.mem_cons] at h
        rcases h with h | h
        · exact Or.inl h
        · exact Or.inr (List.mem_cons_of_mem p h)
      · simp only [aset, hp, if_false, List.mem_cons] at h
        rcases h with h | h
        · exact Or.inr (h ▸ List.mem_cons_self p l)
        · rcases ih h with h | h
          · exact Or.inl h
          · exact Or.inr (List.mem_cons_of_mem p h)

/-! ## Claim C1: `UpdateTestRun` on a terminal snapshot -/

/-- C1: for every store and every snapshot whose current status is terminal
(completed or aborted), `UpdateTestRun` deletes the existing record for that
run id if one exists (tracked count decreases by exactly one, a subsequent
`GetTestRunState` returns absent, all other records are untouched); if no
record exists the store is completely unchanged; it never creates a record
for a terminal snapshot. -/
theorem UpdateTestRun_terminal_spec (s : Store) (st : TestRunState) (now : Int)
    (hwf : StoreWf s)
    (hterm : st.CurrentStatus = "completed" ∨ st.CurrentStatus = "aborted") :
    ((alookup st.TestRunID s).isSome →
        UpdateTestRun s st now = aerase st.TestRunID s ∧
        GetStateCount (UpdateTestRun s st now) + 1 = GetStateCount s ∧
        (∀ j, j ≠ st.TestRunID →
          GetTestRunState (UpdateTestRun s st now) j = GetTestRunState s j)) ∧
    (alookup st.TestRunID s = none → UpdateTestRun s st now = s) ∧
    GetTestRunState (UpdateTestRun s st now) st.TestRunID = none := by
  unfold UpdateTestRun
  simp only [hterm, if_true]
  by_cases h : (alookup st.TestRunID s).isSome
  · refine ⟨fun _ => ⟨by simp [h], ?_, ?_⟩, fun hn => by simp [hn] at h, ?_⟩
    · simp only [h, if_true]
      exact aerase_length_of_isSome hwf.1 h
    · intro j hj
      simp only [h, if_true, GetTestRunState]
      exact alookup_aerase_of_ne hj s
    · simp only [h, if_true, GetTestRunState]
      exact alookup_aerase_self st.TestRunID s
  · have hn : alookup st.TestRunID s = none := Option.not_isSome_iff_eq_none.mp h
    refine ⟨fun hs => absurd hs h, fun _ => by simp [h], ?_⟩
    simp only [h, if_false, GetTestRunState]
    exact hn

/-- Concrete instantiation of `UpdateTestRun_terminal_spec`. -/
theorem UpdateTestRun_terminal_spec_witness :
    GetTestRunState
      (UpdateTestRun
        [(1, { TestRunID := 1, TestID := 100, ProjectID := 1000, TestName := "t",
               CurrentStatus := "running", StatusHistory := [("running", 0)],
               LastUpdated := 0, Created := 0, Ended := none, Result := none,
               StartedBy := "u", VUH := 0 })]
        { TestRunID := 1, TestID := 100, ProjectID := 1000, TestName := "t",
          CurrentStatus := "completed", StatusHistory := [], LastUpdated := 5,
          Created := 0, Ended := some 5, Result := some "passed", StartedBy := "u",
          VUH := 0 } 5)
      1 = none :=
  (UpdateTestRun_terminal_spec _ _ 5
    (by constructor
        · simp [akeysNodup]
        · intro p hp
          simp only [List.mem_singleton] at hp
          subst hp
          simp [akeysNodup])
    (Or.inl rfl)).2.2

/-! ## Claim C10: `RecordTestRunStatus` -/

/-- C10: for an untracked run id, `RecordTestRunStatus` returns true yet
leaves the store completely unchanged (so a repeated call with the same id
and status again returns true); for a tracked run id it returns true exactly
when the status is absent from the record's observed-status set, and in that
case it appends the status with the current time, updates the current status
and refreshes the last-updated timestamp. -/
theorem RecordTestRunStatus_spec (s : Store) (runID : Int) (status : String)
    (now now2 : Int) :
    (alookup runID s = none →
        RecordTestRunStatus s runID status now = (true, s) ∧
        RecordTestRunStatus (RecordTestRunStatus s runID status now).2 runID status now2
          = (true, s)) ∧
    (∀ r, alookup runID s = some r →
        ((RecordTestRunStatus s runID status now).1 = true ↔
            alookup status r.StatusHistory = none) ∧
        (alookup status r.StatusHistory = none →
            (RecordTestRunStatus s runID status now).2 =
              aset runID { r with
                StatusHistory := r.StatusHistory ++ [(status, now)]
                CurrentStatus := status
                LastUpdated := now } s) ∧
        ((alookup status r.StatusHistory).isSome →
            RecordTestRunStatus s runID status now = (false, s))) := by
  constructor
  · intro hn
    constructor
    · simp [RecordTestRunStatus, hn]
    · simp [RecordTestRunStatus, hn]
  · intro r hr
    refine ⟨?_, ?_, ?_⟩
    · by_cases hs : (alookup status r.StatusHistory).isSome
      · have := Option.isSome_iff_exists.mp hs
        simp [RecordTestRunStatus, hr, hs, Option.not_isSome_iff_eq_none.symm]
      · have hnone : alookup status r.StatusHistory = none :=
          Option.not_isSome_iff_eq_none.mp hs
        simp [RecordTestRunStatus, hr, hnone]
    · intro hnone
      simp [RecordTestRunStatus, hr, hnone]
    · intro hs
      simp [RecordTestRunStatus, hr, hs]

/-- Concrete instantiation of `RecordTestRunStatus_spec`: an untracked run id
reports a "new status" twice in a row while the store stays empty. -/
theorem RecordTestRunStatus_spec_witness :
    RecordTestRunStatus ([] : Store) 7 "created" 3 = (true, []) ∧
    RecordTestRunStatus (RecordTestRunStatus ([] : Store) 7 "created" 3).2 7 "created" 4
      = (true, []) :=
  (RecordTestRunStatus_spec [] 7 "created" 3 4).1 rfl

/-! ## Claim C3: tracked records are always non-terminal -/

/-- One call against the state store, with the arguments the caller supplies
(reads keep the store; `Cleanup` / `CleanupCompletedRuns` keep the remaining
store). -/
inductive StoreOp where
  | update (st : TestRunState) (now : Int)
  | getOne (runID : Int)
  | getAll
  | getCount
  | statusCounts (status : String)
  | hasSeen (runID : Int) (status : String)
  | cleanup (maxAge : Int) (now : Int)
  | cleanupCompleted
  deriving Repr

/-- Effect of one store operation on the store contents. -/
def applyStoreOp (s : Store) : StoreOp → Store
  | .update st now => UpdateTestRun s st now
  | .getOne _ => s
  | .getAll => s
  | .getCount => s
  | .statusCounts _ => s
  | .hasSeen _ _ => s
  | .cleanup maxAge now => (Cleanup s maxAge now).2
  | .cleanupCompleted => (CleanupCompletedRuns s).2

/-- The store obtained after a sequence of operations starting from empty. -/
def runStoreOps (ops : List StoreOp) : Store :=
  ops.foldl applyStoreOp []

/-- Every record of the store has a non-terminal current status. -/
def NonTerminalStore (s : Store) : Prop :=
  ∀ p ∈ s, p.2.CurrentStatus ≠ "completed" ∧ p.2.CurrentStatus ≠ "aborted"

theorem applyStoreOp_nonTerminal {s : Store} (h : NonTerminalStore s) (op : StoreOp) :
    NonTerminalStore (applyStoreOp s op) := by
  cases op with
  | update st now =>
      intro p hp
      unfold applyStoreOp UpdateTestRun at hp
      by_cases hterm : st.CurrentStatus = "completed" ∨ st.CurrentStatus = "aborted"
      · simp only [hterm, if_true] at hp
        by_cases hs : (alookup st.TestRunID s).isSome
        · simp only [hs, if_true] at hp
          exact h p ((aerase_sublist st.TestRunID s).mem hp)
        · simp only [hs, if_false] at hp
          exact h p hp
      · push_neg at hterm
        simp only [hterm.1, hterm.2, false_or, if_false] at hp
        rcases hl : alookup st.TestRunID s with _ | existing
        · rw [hl] at hp
          simp only at hp
          rcases mem_aset hp with hq | hq
          · subst hq; exact ⟨hterm.1, hterm.2⟩
          · exact h p hq
        · rw [hl] at hp
          simp only at hp
          rcases mem_aset hp with hq | hq
          · subst hq; exact ⟨hterm.1, hterm.2⟩
          · exact h p hq
  | getOne runID => exact h
  | getAll => exact h
  | getCount => exact h
  | statusCounts status => exact h
  | hasSeen runID status => exact h
  | cleanup maxAge now =>
      intro p hp
      exact h p (List.mem_of_mem_filter hp)
  | cleanupCompleted =>
      intro p hp
      exact h p (List.mem_of_mem_filter hp)

/-- C3: starting from the empty store, after any sequence of store operations
with arbitrary arguments, every record present has a non-terminal current
status (neither completed nor aborted). -/
theorem runStoreOps_nonTerminal (ops : List StoreOp) :
    ∀ p ∈ runStoreOps ops, p.2.CurrentStatus ≠ "completed" ∧ p.2.CurrentStatus ≠ "aborted" := by
  unfold runStoreOps
  have main : ∀ (ops : List StoreOp) (s : Store), NonTerminalStore s →
      NonTerminalStore (ops.foldl applyStoreOp s) := by
    intro ops
    induction ops with
    | nil => intro s hs; exact hs
    | cons op ops ih =>
        intro s hs
        exact ih _ (applyStoreOp_nonTerminal hs op)
  exact main ops [] (by intro p hp; cases hp)

/-- Snapshot used by the C3 witness. -/
def c3Snap : TestRunState :=
  { TestRunID := 1, TestID := 2, ProjectID := 3, TestName := "t",
    CurrentStatus := "running", StatusHistory := [], LastUpdated := 0,
    Created := 0, Ended := none, Result := none, StartedBy := "u", VUH := 0 }

/-- Store entry produced by the C3 witness operation sequence. -/
def c3Entry : Int × TestRunState :=
  (1, { c3Snap with StatusHistory := [("running", 0)], LastUpdated := 7 })

/-- Concrete instantiation of `runStoreOps_nonTerminal`: one update with a
running snapshot leaves exactly one non-terminal record. -/
theorem runStoreOps_nonTerminal_witness :
    c3Entry ∈ runStoreOps [StoreOp.update c3Snap 7] ∧
    c3Entry.2.CurrentStatus ≠ "completed" :=
  ⟨by decide, (runStoreOps_nonTerminal [StoreOp.update c3Snap 7] c3Entry (by decide)).1⟩

/-! ## Claim C2: repeated observation of the same status is idempotent -/

theorem alookup_mem {κ α : Type} [DecidableEq κ] {k : κ} {v : α} {l : List (κ × α)}
    (h : alookup k l = some v) : (k, v) ∈ l := by
  induction l with
  | nil => cases h
  | cons p l ih =>
      by_cases hp : p.1 = k
      · simp only [alookup, hp, if_true, Option.some_inj] at h
        subst h
        rcases p with ⟨p1, p2⟩
        cases hp
        exact List.mem_cons_self _ _
      · simp only [alookup, hp, if_false] at h
        exact List.mem_cons_of_mem p (ih h)

theorem countP_keys_of_alookup_none {κ α : Type} [DecidableEq κ] {k : κ}
    {l : List (κ × α)} (h : alookup k l = none) :
    l.countP (fun q => decide (q.1 = k)) = 0 := by
  induction l with
  | nil => rfl
  | cons p l ih =>
      by_cases hp : p.1 = k
      · simp [alookup, hp] at h
      · simp only [alookup, hp, if_false] at h
        simp [List.countP_cons, hp, ih h]

theorem countP_keys_of_alookup_isSome {κ α : Type} [DecidableEq κ] {k : κ}
    {l : List (κ × α)} (hn : akeysNodup l) (h : (alookup k l).isSome) :
    l.countP (fun q => decide (q.1 = k)) = 1 := by
  induction l with
  | nil => simp [alookup] at h
  | cons p l ih =>
      unfold akeysNodup at hn
      simp only [List.map_cons, List.nodup_cons] at hn
      by_cases hp : p.1 = k
      · have htail : alookup k l = none := by
          apply alookup_eq_none_of_not_mem_keys
          rw [← hp]; exact hn.1
        simp [List.countP_cons, hp, countP_keys_of_alookup_none htail]
      · simp only [alookup, hp, if_false] at h
        simp [List.countP_cons, hp, ih hn.2 h]

/-- A sequence of `UpdateTestRun` calls, each with its own `time.Now()`. -/
def runUpdates (s : Store) (calls : List (TestRunState × Int)) : Store :=
  calls.foldl (fun acc c => UpdateTestRun acc c.1 c.2) s

/-- How `UpdateTestRun` rewrites a tracked record on the non-terminal update
path (the body of the `existing` branch of `manager.go`). -/
def updateExistingRecord (existing st : TestRunState) (now : Int) : TestRunState :=
  { existing with
    CurrentStatus := st.CurrentStatus
    LastUpdated := now
    Ended := st.Ended
    Result := st.Result
    VUH := st.VUH
    StatusHistory :=
      if (alookup st.CurrentStatus existing.StatusHistory).isSome then
        existing.StatusHistory
      else
        existing.StatusHistory ++ [(st.CurrentStatus, now)] }

theorem UpdateTestRun_tracked_eq (s : Store) (st : TestRunState) (now : Int)
    {r : TestRunState}
    (hnt : st.CurrentStatus ≠ "completed" ∧ st.CurrentStatus ≠ "aborted")
    (htr : alookup st.TestRunID s = some r) :
    UpdateTestRun s st now = aset st.TestRunID (updateExistingRecord r st now) s := by
  unfold UpdateTestRun
  simp only [hnt.1, hnt.2, false_or, if_false, htr]
  rfl

/-- C2: for a run id already tracked and a non-terminal status, repeating
`UpdateTestRun` with that run id and status any number of further times
leaves the record's observed-status set with exactly one entry for the
status, carrying the first-seen timestamp present after the first call,
which later calls never change. -/
theorem UpdateTestRun_status_idempotent (s : Store) (r st1 : TestRunState)
    (now1 : Int) (rest : List (TestRunState × Int)) (runID : Int) (status : String)
    (hwf : StoreWf s)
    (htr : alookup runID s = some r)
    (hnt : status ≠ "completed" ∧ status ≠ "aborted")
    (h1 : st1.TestRunID = runID ∧ st1.CurrentStatus = status)
    (hrest : ∀ c ∈ rest, c.1.TestRunID = runID ∧ c.1.CurrentStatus = status) :
    ∃ ts r1 rN,
      alookup runID (UpdateTestRun s st1 now1) = some r1 ∧
      alookup status r1.StatusHistory = some ts ∧
      r1.StatusHistory.countP (fun q => decide (q.1 = status)) = 1 ∧
      alookup runID (runUpdates (UpdateTestRun s st1 now1) rest) = some rN ∧
      rN.StatusHistory = r1.StatusHistory := by
  have hhistnodup : akeysNodup r.StatusHistory := hwf.2 (runID, r) (alookup_mem htr)
  -- the store after the first call
  have hstep1 : UpdateTestRun s st1 now1 = aset runID (updateExistingRecord r st1 now1) s := by
    rw [UpdateTestRun_tracked_eq s st1 now1 (h1.2 ▸ hnt) (h1.1 ▸ htr), h1.1]
  set r1 := updateExistingRecord r st1 now1 with hr1
  have hlook1 : alookup runID (UpdateTestRun s st1 now1) = some r1 := by
    rw [hstep1]; exact alookup_aset_self runID r1 s
  -- the first call leaves exactly one entry for the status, with a timestamp ts
  have hhist1 : ∃ ts, alookup status r1.StatusHistory = some ts ∧
      r1.StatusHistory.countP (fun q => decide (q.1 = status)) = 1 := by
    rw [hr1]
    unfold updateExistingRecord
    simp only [h1.2]
    by_cases hseen : (alookup status r.StatusHistory).isSome
    · rcases Option.isSome_iff_exists.mp hseen with ⟨ts, hts⟩
      exact ⟨ts, by simpa [hseen] using hts,
        by simpa [hseen] using countP_keys_of_alookup_isSome hhistnodup hseen⟩
    · have hnone : alookup status r.StatusHistory = none :=
        Option.not_isSome_iff_eq_none.mp hseen
      refine ⟨now1, ?_, ?_⟩
      · rw [if_neg (by rw [hnone]; simp)]
        rw [alookup_append, hnone]
        simp [alookup]
      · rw [if_neg (by rw [hnone]; simp)]
        rw [List.countP_append, countP_keys_of_alookup_none hnone]
        simp [List.countP_cons]
  rcases hhist1 with ⟨ts, hts1, hcount1⟩
  -- later identical calls keep the record and leave its history untouched
  have hstable : ∀ (calls : List (TestRunState × Int)) (s0 : Store) (rr : TestRunState),
      (∀ c ∈ calls, c.1.TestRunID = runID ∧ c.1.CurrentStatus = status) →
      alookup runID s0 = some rr → rr.StatusHistory = r1.StatusHistory →
      ∃ rN, alookup runID (runUpdates s0 calls) = some rN ∧
        rN.StatusHistory = r1.StatusHistory := by
    intro calls
    induction calls with
    | nil => intro s0 rr _ hl hh; exact ⟨rr, hl, hh⟩
    | cons c calls ih =>
        intro s0 rr hc hl hh
        have hc1 := hc c (List.mem_cons_self c calls)
        have hseen1 : (alookup c.1.CurrentStatus rr.StatusHistory).isSome := by
          rw [hc1.2, hh, hts1]; rfl
        have hstep : UpdateTestRun s0 c.1 c.2 =
            aset runID (updateExistingRecord rr c.1 c.2) s0 := by
          rw [UpdateTestRun_tracked_eq s0 c.1 c.2 (hc1.2 ▸ hnt) (hc1.1 ▸ hl), hc1.1]
        have hnext : alookup runID (UpdateTestRun s0 c.1 c.2) =
            some (updateExistingRecord rr c.1 c.2) := by
          rw [hstep]; exact alookup_aset_self _ _ _
        have hnh : (updateExistingRecord rr c.1 c.2).StatusHistory = r1.StatusHistory := by
          unfold updateExistingRecord
          simp only [hseen1, if_true]
          exact hh
        have : runUpdates s0 (c :: calls) = runUpdates (UpdateTestRun s0 c.1 c.2) calls := rfl
        rw [this]
        exact ih _ _ (fun d hd => hc d (List.mem_cons_of_mem c hd)) hnext hnh
  rcases hstable rest (UpdateTestRun s st1 now1) r1 hrest hlook1 rfl with ⟨rN, hlN, hhN⟩
  exact ⟨ts, r1, rN, hlook1, hts1, hcount1, hlN, hhN⟩

/-- Tracked record used by the C2 witness. -/
def c2Rec : TestRunState :=
  { TestRunID := 1, TestID := 2, ProjectID := 3, TestName := "t",
    CurrentStatus := "created", StatusHistory := [("created", 0)],
    LastUpdated := 0, Created := 0, Ended := none, Result := none,
    StartedBy := "u", VUH := 0 }

/-- Snapshot repeatedly applied by the C2 witness. -/
def c2Snap : TestRunState :=
  { c2Rec with CurrentStatus := "running" }

/-- Concrete instantiation of `UpdateTestRun_status_idempotent` with N = 3
calls carrying the status "running". -/
theorem UpdateTestRun_status_idempotent_witness :
    ∃ ts r1 rN,
      alookup 1 (UpdateTestRun [(1, c2Rec)] c2Snap 10) = some r1 ∧
      alookup "running" r1.StatusHistory = some ts ∧
      r1.StatusHistory.countP (fun q => decide (q.1 = "running")) = 1 ∧
      alookup 1 (runUpdates (UpdateTestRun [(1, c2Rec)] c2Snap 10)
        [(c2Snap, 20), (c2Snap, 30)]) = some rN ∧
      rN.StatusHistory = r1.StatusHistory :=
  UpdateTestRun_status_idempotent [(1, c2Rec)] c2Rec c2Snap 10
    [(c2Snap, 20), (c2Snap, 30)] 1 "running"
    (by constructor
        · simp [akeysNodup]
        · intro p hp
          simp only [List.mem_singleton] at hp
          subst hp
          simp [akeysNodup, c2Rec])
    (by simp [alookup]) (by decide) (by decide)
    (by intro c hc
        rcases List.mem_cons.mp hc with h | h
        · subst h; exact ⟨rfl, rfl⟩
        · simp only [List.mem_singleton] at h
          subst h; exact ⟨rfl, rfl⟩)

/-! ## Claim C5: `Cleanup` removes exactly the stale records -/

/-- The staleness predicate of the spec, spelled out: the run ended before
the cutoff, or was last updated before the cutoff. -/
theorem cleanupShouldRemove_iff (cutoff : Int) (st : TestRunState) :
    cleanupShouldRemove cutoff st = true ↔
      ((∃ e, st.Ended = some e ∧ e < cutoff) ∨ st.LastUpdated < cutoff) := by
  unfold cleanupShouldRemove
  cases h : st.Ended with
  | none => simp [h]
  | some e => simp [h]

/-- C5: `Cleanup maxAge` removes exactly the records satisfying (end time is
set and before now − maxAge) or (last-updated before now − maxAge), returns
the number removed, and keeps every other record with all field values
unchanged. -/
theorem Cleanup_spec (s : Store) (maxAge now : Int) :
    (∀ p, p ∈ (Cleanup s maxAge now).2 ↔
        (p ∈ s ∧
          ¬ ((∃ e, p.2.Ended = some e ∧ e < now - maxAge) ∨
             p.2.LastUpdated < now - maxAge))) ∧
    (Cleanup s maxAge now).1 + (Cleanup s maxAge now).2.length = s.length ∧
    (Cleanup s maxAge now).1 =
      s.countP (fun p => cleanupShouldRemove (now - maxAge) p.2) := by
  refine ⟨?_, ?_, ?_⟩
  · intro p
    unfold Cleanup
    simp only [List.mem_filter]
    constructor
    · rintro ⟨hmem, hkeep⟩
      refine ⟨hmem, ?_⟩
      rw [← cleanupShouldRemove_iff (now - maxAge) p.2]
      simp only [Bool.not_eq_true_eq_eq_false] at hkeep ⊢
      cases h : cleanupShouldRemove (now - maxAge) p.2 with
      | false => simp
      | true => rw [h] at hkeep; simp at hkeep
    · rintro ⟨hmem, hstale⟩
      rw [← cleanupShouldRemove_iff (now - maxAge) p.2] at hstale
      refine ⟨hmem, ?_⟩
      cases h : cleanupShouldRemove (now - maxAge) p.2 with
      | false => simp
      | true => exact absurd h hstale
  · unfold Cleanup
    dsimp only
    induction s with
    | nil => rfl
    | cons p s ih =>
        by_cases h : cleanupShouldRemove (now - maxAge) p.2 = true
        · rw [List.filter_cons_of_pos (by simpa using h),
            List.filter_cons_of_neg (by simp [h])]
          simp only [List.length_cons]
          omega
        · have hf : cleanupShouldRemove (now - maxAge) p.2 = false := by
            cases hx : cleanupShouldRemove (now - maxAge) p.2
            · rfl
            · exact absurd hx h
          rw [List.filter_cons_of_neg (by simp [hf]),
            List.filter_cons_of_pos (by simp [hf])]
          simp only [List.length_cons]
          omega
  · unfold Cleanup
    simp [List.countP_eq_length_filter]

/-- Concrete instantiation of `Cleanup_spec`: one stale and one fresh record,
the fresh one is kept. -/
theorem Cleanup_spec_witness :
    ((2 : Int), ({ c2Rec with TestRunID := 2, LastUpdated := 100 } : TestRunState)) ∈
      (Cleanup [(1, { c2Rec with LastUpdated := 0 }),
                (2, { c2Rec with TestRunID := 2, LastUpdated := 100 })] 50 100).2 :=
  ((Cleanup_spec [(1, { c2Rec with LastUpdated := 0 }),
      (2, { c2Rec with TestRunID := 2, LastUpdated := 100 })] 50 100).1 _).mpr
    (by refine ⟨by decide, ?_⟩
        intro h
        rcases h with ⟨e, he, _⟩ | hlu
        · exact Option.noConfusion he
        · exact absurd hlu (by decide))

/-! ## Claim C6: end time and result on tracked records -/

/-- A non-terminal snapshot that carries an end time and a result. -/
def c6Snap : TestRunState :=
  { TestRunID := 1, TestID := 2, ProjectID := 3, TestName := "t",
    CurrentStatus := "running", StatusHistory := [], LastUpdated := 0,
    Created := 0, Ended := some 5, Result := some "passed", StartedBy := "u",
    VUH := 0 }

/-- Counterexample to C6 as stated: after a single `UpdateTestRun` with a
running snapshot that carries an end time and a result, the tracked record
has both fields set — the store keeps whatever the snapshot carried, it does
not reserve the fields for terminal runs. -/
theorem UpdateTestRun_ended_result_cex :
    ¬ (∀ p ∈ runUpdates [] [(c6Snap, 0)], p.2.Ended = none ∧ p.2.Result = none) := by
  intro h
  have := h (1, { c6Snap with StatusHistory := [("running", 0)], LastUpdated := 0 })
    (by decide)
  exact Option.noConfusion this.1

/-- C6 (amended): after any sequence of `UpdateTestRun` calls whose snapshots
carry no end time and no result, every tracked record has an unset end time
and an unset result.  (In general, a tracked record's end time and result
mirror the most recent snapshot for that run, whatever its status.) -/
theorem runUpdates_ended_result_none (calls : List (TestRunState × Int))
    (h : ∀ c ∈ calls, c.1.Ended = none ∧ c.1.Result = none) :
    ∀ p ∈ runUpdates [] calls, p.2.Ended = none ∧ p.2.Result = none := by
  have main : ∀ (calls : List (TestRunState × Int)) (s : Store),
      (∀ c ∈ calls, c.1.Ended = none ∧ c.1.Result = none) →
      (∀ p ∈ s, p.2.Ended = none ∧ p.2.Result = none) →
      ∀ p ∈ runUpdates s calls, p.2.Ended = none ∧ p.2.Result = none := by
    intro calls
    induction calls with
    | nil => intro s _ hs; exact hs
    | cons c calls ih =>
        intro s hc hs
        apply ih (UpdateTestRun s c.1 c.2) (fun d hd => hc d (List.mem_cons_of_mem c hd))
        intro p hp
        have hcfields := hc c (List.mem_cons_self c calls)
        unfold UpdateTestRun at hp
        by_cases hterm : c.1.CurrentStatus = "completed" ∨ c.1.CurrentStatus = "aborted"
        · simp only [hterm, if_true] at hp
          by_cases hsm : (alookup c.1.TestRunID s).isSome
          · simp only [hsm, if_true] at hp
            exact hs p ((aerase_sublist c.1.TestRunID s).mem hp)
          · simp only [hsm, if_false] at hp
            exact hs p hp
        · push_neg at hterm
          simp only [hterm.1, hterm.2, false_or, if_false] at hp
          rcases hl : alookup c.1.TestRunID s with _ | existing
          · rw [hl] at hp
            simp only at hp
            rcases mem_aset hp with hq | hq
            · subst hq; exact ⟨hcfields.1, hcfields.2⟩
            · exact hs p hq
          · rw [hl] at hp
            simp only at hp
            rcases mem_aset hp with hq | hq
            · subst hq; exact ⟨hcfields.1, hcfields.2⟩
            · exact hs p hq
  exact main calls [] h (by intro p hp; cases hp)

/-- The record created by the single update of the C6 witness. -/
def c6wEntry : Int × TestRunState :=
  (1, { c2Snap with StatusHistory := [("running", 0)], LastUpdated := 0 })

/-- Concrete instantiation of `runUpdates_ended_result_none` with a single
running snapshot carrying neither end time nor result. -/
theorem runUpdates_ended_result_none_witness :
    c6wEntry.2.Ended = none ∧ c6wEntry.2.Result = none :=
  runUpdates_ended_result_none [(c2Snap, 0)]
    (by intro c hc
        simp only [List.mem_singleton] at hc
        subst hc
        exact ⟨rfl, rfl⟩)
    c6wEntry (by decide)

/-! ## Configuration (embedded from `internal/config/config.go`) -/

/-- Config holds the application configuration.  `time.Duration` fields are
nanosecond counts. -/
structure Config where
  K6APIToken : String
  K6APIURL : String
  GrafanaStackID : String
  Port : Int
  TestCacheTTL : Int
  StateCleanupInterval : Int
  ScrapeInterval : Int
  Projects : List String
  MaxConcurrentRequests : Int
  APITimeout : Int
  RetryAttempts : Int
  RetryDelay : Int
  deriving DecidableEq, Repr

/-- One second of `time.Duration`, in nanoseconds. -/
def timeSecond : Int := 1000000000

/-- One minute of `time.Duration`, in nanoseconds. -/
def timeMinute : Int := 60 * timeSecond

/-- Character-list core of `strings.HasPrefix`. -/
def listHasPrefixAux : List Char → List Char → Bool
  | _, [] => true
  | [], _ :: _ => false
  | c :: s, d :: pre => c == d && listHasPrefixAux s pre

/-- strings.HasPrefix. -/
def strHasPrefix (s pre : String) : Bool :=
  listHasPrefixAux s.data pre.data

/-- Validate validates the configuration; `some msg` stands for a returned
error (from `config.go`). -/
def Config.Validate (c : Config) : Option String :=
  if c.K6APIToken = "" then
    some "K6_API_TOKEN is required"
  else if c.GrafanaStackID = "" then
    some "GRAFANA_STACK_ID is required"
  else if !(strHasPrefix c.K6APIURL "http://") && !(strHasPrefix c.K6APIURL "https://") then
    some "K6_API_URL must start with http:// or https://"
  else if c.Port < 1 ∨ c.Port > 65535 then
    some "PORT must be between 1 and 65535"
  else if c.TestCacheTTL < timeSecond then
    some "TEST_CACHE_TTL must be at least 1 second"
  else if c.StateCleanupInterval < timeMinute then
    some "STATE_CLEANUP_INTERVAL must be at least 1 minute"
  else if c.MaxConcurrentRequests < 1 then
    some "MAX_CONCURRENT_REQUESTS must be at least 1"
  else
    none

/-- The validation step of `config.Load`: a failed `Validate` refuses the
configuration, otherwise the process proceeds with it. -/
def loadValidated (c : Config) : Except String Config :=
  match c.Validate with
  | some e => Except.error ("invalid configuration: " ++ e)
  | none => Except.ok c

/-- C9: `Config.Validate` returns an error if and only if the API token is
empty, the stack id is empty, the API URL starts with neither http:// nor
https://, the port is outside 1..65535, the cache TTL is below one second,
the cleanup interval is below one minute, or the concurrency cap is below
one; and a configuration with no error is accepted for startup. -/
theorem Config_Validate_spec (c : Config) :
    (c.Validate ≠ none ↔
      (c.K6APIToken = "" ∨ c.GrafanaStackID = "" ∨
       ¬ (strHasPrefix c.K6APIURL "http://" = true ∨ strHasPrefix c.K6APIURL "https://" = true) ∨
       c.Port < 1 ∨ c.Port > 65535 ∨
       c.TestCacheTTL < timeSecond ∨
       c.StateCleanupInterval < timeMinute ∨
       c.MaxConcurrentRequests < 1)) ∧
    (c.Validate = none → loadValidated c = Except.ok c) := by
  constructor
  · unfold Config.Validate
    split_ifs with h1 h2 h3 h4 h5 h6 h7
    · simp only [ne_eq, reduceCtorEq, not_false_eq_true, true_iff]; tauto
    · simp only [ne_eq, reduceCtorEq, not_false_eq_true, true_iff]; tauto
    · simp only [Bool.and_eq_true, Bool.not_eq_true'] at h3
      simp only [ne_eq, reduceCtorEq, not_false_eq_true, true_iff]
      refine Or.inr (Or.inr (Or.inl ?_))
      rw [h3.1, h3.2]
      simp
    · simp only [ne_eq, reduceCtorEq, not_false_eq_true, true_iff]; tauto
    · simp only [ne_eq, reduceCtorEq, not_false_eq_true, true_iff]; tauto
    · simp only [ne_eq, reduceCtorEq, not_false_eq_true, true_iff]; tauto
    · simp only [ne_eq, reduceCtorEq, not_false_eq_true, true_iff]; tauto
    · simp only [ne_eq, not_true_eq_false, false_iff, not_or]
      push_neg
      refine ⟨h1, h2, ?_, ?_, ?_, by omega, by omega, by omega⟩
      · intro ha
        cases hb : strHasPrefix c.K6APIURL "https://" with
        | true => rfl
        | false =>
            have hx : strHasPrefix c.K6APIURL "http://" = false := by
              cases hy : strHasPrefix c.K6APIURL "http://"
              · rfl
              · exact absurd hy ha
            exact False.elim (h3 (by rw [hx, hb]; rfl))
      · omega
      · omega
  · intro h
    unfold loadValidated
    rw [h]

/-- A configuration accepted by `Config.Validate`. -/
def c9Sample : Config :=
  { K6APIToken := "tok", K6APIURL := "https://api.k6.io", GrafanaStackID := "1",
    Port := 9090, TestCacheTTL := 60 * timeSecond,
    StateCleanupInterval := 5 * timeMinute, ScrapeInterval := 15 * timeSecond,
    Projects := [], MaxConcurrentRequests := 10, APITimeout := 30 * timeSecond,
    RetryAttempts := 3, RetryDelay := timeSecond }

/-- Concrete instantiation of `Config_Validate_spec`: the sample valid
configuration is accepted for startup. -/
theorem Config_Validate_spec_witness : loadValidated c9Sample = Except.ok c9Sample :=
  (Config_Validate_spec c9Sample).2 (by decide)

/-! ## Collector (embedded from `internal/collector/collector.go`)

Strings manipulated by the label-key machinery are `List Char`; resolved
test names are carried as `List Char` and converted with `String.mk` where
a `state.TestRunState` is built. -/

/-- One decimal digit as a character. -/
def digitToChar : Nat → Char
  | 0 => '0'
  | 1 => '1'
  | 2 => '2'
  | 3 => '3'
  | 4 => '4'
  | 5 => '5'
  | 6 => '6'
  | 7 => '7'
  | 8 => '8'
  | 9 => '9'
  | _ => '*'

/-- Fuel-driven decimal rendering of a natural number (fuel keeps the
recursion structural so that terms reduce in the kernel). -/
def natDigitsAux : Nat → Nat → List Char
  | 0, _ => []
  | fuel + 1, n =>
      if n < 10 then [digitToChar n]
      else natDigitsAux fuel (n / 10) ++ [digitToChar (n % 10)]

/-- Decimal digit string of a natural number. -/
def natDigits (n : Nat) : List Char :=
  natDigitsAux (n + 1) n

/-- strconv.Itoa: decimal rendering of a Go int. -/
def itoa (i : Int) : List Char :=
  if i < 0 then '-' :: natDigits (-i).toNat else natDigits i.toNat

theorem natDigitsAux_fuel_irrel (fuel : Nat) : ∀ fuel₂ n, n < fuel → n < fuel₂ →
    natDigitsAux fuel n = natDigitsAux fuel₂ n := by
  induction fuel with
  | zero => intro fuel₂ n h; omega
  | succ fuel ih =>
      intro fuel₂ n h h₂
      cases fuel₂ with
      | zero => omega
      | succ fuel₂ =>
          by_cases hn : n < 10
          · simp [natDigitsAux, hn]
          · have hdiv : n / 10 < n := Nat.div_lt_self (by omega) (by omega)
            simp only [natDigitsAux, hn, if_false]
            rw [ih fuel₂ (n / 10) (by omega) (by omega)]

theorem natDigits_unfold (n : Nat) :
    natDigits n = if n < 10 then [digitToChar n]
      else natDigits (n / 10) ++ [digitToChar (n % 10)] := by
  by_cases hn : n < 10
  · simp [natDigits, natDigitsAux, hn]
  · rw [if_neg hn]
    have h1 : natDigits n = natDigitsAux n (n / 10) ++ [digitToChar (n % 10)] := by
      simp [natDigits, natDigitsAux, hn]
    rw [h1]
    congr 1
    exact natDigitsAux_fuel_irrel n (n / 10 + 1) (n / 10) (by omega) (by omega)

/-- Numeric value folded back from a digit string. -/
def digitsVal (l : List Char) : Nat :=
  l.foldl (fun a c => 10 * a + (c.toNat - 48)) 0

theorem digitsVal_append_digit (l : List Char) (c : Char) :
    digitsVal (l ++ [c]) = 10 * digitsVal l + (c.toNat - 48) := by
  unfold digitsVal
  rw [List.foldl_append]
  rfl

theorem digitToChar_val {d : Nat} (h : d < 10) : (digitToChar d).toNat - 48 = d := by
  interval_cases d <;> rfl

theorem digitsVal_natDigits (n : Nat) : digitsVal (natDigits n) = n := by
  induction n using Nat.strong_induction_on with
  | _ n ih =>
      rw [natDigits_unfold]
      by_cases hn : n < 10
      · simp only [hn, if_true]
        unfold digitsVal
        simp [List.foldl, digitToChar_val hn]
      · have hdiv : n / 10 < n := Nat.div_lt_self (by omega) (by omega)
        simp only [hn, if_false]
        rw [digitsVal_append_digit, ih (n / 10) hdiv,
          digitToChar_val (Nat.mod_lt n (by omega))]
        omega

theorem natDigits_inj {a b : Nat} (h : natDigits a = natDigits b) : a = b := by
  have := congrArg digitsVal h
  rwa [digitsVal_natDigits, digitsVal_natDigits] at this

theorem digitToChar_ne_pipe (d : Nat) : digitToChar d ≠ '|' := by
  unfold digitToChar
  split <;> decide

theorem digitToChar_ne_dash (d : Nat) : digitToChar d ≠ '-' := by
  unfold digitToChar
  split <;> decide

theorem natDigits_chars (n : Nat) : ∀ c ∈ natDigits n, c ≠ '|' ∧ c ≠ '-' := by
  induction n using Nat.strong_induction_on with
  | _ n ih =>
      rw [natDigits_unfold]
      by_cases hn : n < 10
      · simp only [hn, if_true, List.mem_singleton]
        intro c hc
        subst hc
        exact ⟨digitToChar_ne_pipe n, digitToChar_ne_dash n⟩
      · have hdiv : n / 10 < n := Nat.div_lt_self (by omega) (by omega)
        simp only [hn, if_false]
        intro c hc
        rcases List.mem_append.mp hc with hc | hc
        · exact ih (n / 10) hdiv c hc
        · simp only [List.mem_singleton] at hc
          subst hc
          exact ⟨digitToChar_ne_pipe _, digitToChar_ne_dash _⟩

theorem natDigits_ne_nil (n : Nat) : natDigits n ≠ [] := by
  rw [natDigits_unfold]
  by_cases hn : n < 10
  · simp [hn]
  · simp only [hn, if_false]
    intro h
    exact (natDigits_ne_nil (n / 10)) (List.append_eq_nil.mp h).1

theorem itoa_chars (i : Int) : ∀ c ∈ itoa i, c ≠ '|' := by
  unfold itoa
  by_cases h : i < 0
  · simp only [h, if_true]
    intro c hc
    rcases List.mem_cons.mp hc with hc | hc
    · subst hc; decide
    · exact (natDigits_chars _ c hc).1
  · simp only [h, if_false]
    intro c hc
    exact (natDigits_chars _ c hc).1

theorem itoa_inj {i j : Int} (h : itoa i = itoa j) : i = j := by
  unfold itoa at h
  by_cases hi : i < 0 <;> by_cases hj : j < 0
  · simp only [hi, hj, if_true, List.cons.injEq, true_and] at h
    have := natDigits_inj h
    omega
  · simp only [hi, hj, if_true, if_false] at h
    rcases hd : natDigits j.toNat with _ | ⟨c, l⟩
    · exact absurd hd (natDigits_ne_nil _)
    · rw [hd] at h
      have : c = '-' := by
        have := congrArg (List.headD · ' ') h
        simpa using this.symm
      exact absurd this (natDigits_chars _ c (hd ▸ List.mem_cons_self c l)).2
  · simp only [hi, hj, if_false, if_true] at h
    rcases hd : natDigits i.toNat with _ | ⟨c, l⟩
    · exact absurd hd (natDigits_ne_nil _)
    · rw [hd] at h
      have : c = '-' := by
        have := congrArg (List.headD · ' ') h
        simpa using this
      exact absurd this (natDigits_chars _ c (hd ▸ List.mem_cons_self c l)).2
  · simp only [hi, hj, if_false] at h
    have := natDigits_inj h
    omega

/-- The in-cycle grouping key `fmt.Sprintf("%s|%d|%d", testName, run.TestID,
run.ProjectID)` from `collector.go`. -/
def labelKey (testName : List Char) (testID projectID : Int) : List Char :=
  testName ++ '|' :: itoa testID ++ '|' :: itoa projectID

theorem pipe_split {A B C D : List Char} (hA : '|' ∉ A) (hC : '|' ∉ C)
    (h : A ++ '|' :: B = C ++ '|' :: D) : A = C ∧ B = D := by
  induction A generalizing C with
  | nil =>
      cases C with
      | nil => simpa using h
      | cons c C =>
          simp only [List.nil_append, List.cons_append, List.cons.injEq] at h
          exact absurd (h.1 ▸ List.mem_cons_self c C) (h.1 ▸ hC)
  | cons a A ih =>
      cases C with
      | nil =>
          simp only [List.cons_append, List.nil_append, List.cons.injEq] at h
          exact absurd (h.1 ▸ List.mem_cons_self a A) hA
      | cons c C =>
          simp only [List.cons_append, List.cons.injEq] at h
          have hA₂ : '|' ∉ A := fun hm => hA (List.mem_cons_of_mem a hm)
          have hC₂ : '|' ∉ C := fun hm => hC (List.mem_cons_of_mem c hm)
          rcases ih hA₂ hC₂ h.2 with ⟨h1, h2⟩
          exact ⟨by rw [h.1, h1], h2⟩

theorem labelKey_inj {n₁ n₂ : List Char} {t₁ t₂ p₁ p₂ : Int}
    (h : labelKey n₁ t₁ p₁ = labelKey n₂ t₂ p₂) : n₁ = n₂ ∧ t₁ = t₂ ∧ p₁ = p₂ := by
  unfold labelKey at h
  have hrev := congrArg List.reverse h
  simp only [List.reverse_append, List.reverse_cons, List.append_assoc,
    List.singleton_append] at hrev
  have hp₁ : '|' ∉ (itoa p₁).reverse := fun hm => itoa_chars p₁ '|' (List.mem_reverse.mp hm) rfl
  have hp₂ : '|' ∉ (itoa p₂).reverse := fun hm => itoa_chars p₂ '|' (List.mem_reverse.mp hm) rfl
  rcases pipe_split hp₁ hp₂ hrev with ⟨hp, hrest⟩
  simp only [List.append_eq, List.append_assoc, List.singleton_append] at hrest
  have ht₁ : '|' ∉ (itoa t₁).reverse := fun hm => itoa_chars t₁ '|' (List.mem_reverse.mp hm) rfl
  have ht₂ : '|' ∉ (itoa t₂).reverse := fun hm => itoa_chars t₂ '|' (List.mem_reverse.mp hm) rfl
  rcases pipe_split ht₁ ht₂ hrest with ⟨ht, hn⟩
  refine ⟨?_, ?_, ?_⟩
  · have := congrArg List.reverse hn
    simpa using this
  · exact itoa_inj (by
      have := congrArg List.reverse ht
      simpa using this)
  · exact itoa_inj (by
      have := congrArg List.reverse hp
      simpa using this)

/-- The scan of `indexOf(s, "|", start)` from `collector.go`, relative to the
suffix starting at `start`: least index of a '|' character. -/
def findPipeIdx : List Char → Option Nat
  | [] => none
  | c :: l => if c = '|' then some 0 else (findPipeIdx l).map (· + 1)

/-- indexOf from `collector.go`, specialized to its one-character needle "|"
(`none` stands for the Go return value -1). -/
def indexOfPipe (s : List Char) (start : Nat) : Option Nat :=
  (findPipeIdx (s.drop start)).map (start + ·)

/-- splitLabelKey from `collector.go`: the two iterations of its loop written
out, with `key[a:b]` rendered as `(key.drop a).take (b - a)`. -/
def splitLabelKey (key : List Char) : List (List Char) :=
  match indexOfPipe key 0 with
  | none => if 0 < key.length then [key] else []
  | some i₁ =>
      match indexOfPipe key (i₁ + 1) with
      | none =>
          key.take i₁ :: (if i₁ + 1 < key.length then [key.drop (i₁ + 1)] else [])
      | some i₂ =>
          key.take i₁ :: ((key.drop (i₁ + 1)).take (i₂ - (i₁ + 1))) ::
            (if i₂ + 1 < key.length then [key.drop (i₂ + 1)] else [])

theorem findPipeIdx_decomp {s : List Char} {i : Nat} (h : findPipeIdx s = some i) :
    s = s.take i ++ '|' :: s.drop (i + 1) ∧ '|' ∉ s.take i := by
  induction s generalizing i with
  | nil => cases h
  | cons c l ih =>
      by_cases hc : c = '|'
      · simp only [findPipeIdx, hc, if_true, Option.some_inj] at h
        subst h
        simp [hc]
      · simp only [findPipeIdx, hc, if_false] at h
        rcases Option.map_eq_some'.mp h with ⟨j, hj, hji⟩
        subst hji
        rcases ih hj with ⟨h1, h2⟩
        constructor
        · simpa [List.take_succ_cons, List.drop_succ_cons] using congrArg (c :: ·) h1
        · intro hm
          rcases List.mem_cons.mp (by simpa [List.take_succ_cons] using hm) with hm | hm
          · exact hc hm.symm
          · exact h2 hm

theorem findPipeIdx_of_not_mem {s : List Char} (h : '|' ∉ s) : findPipeIdx s = none := by
  induction s with
  | nil => rfl
  | cons c l ih =>
      have hc : c ≠ '|' := fun hc => h (hc ▸ List.mem_cons_self c l)
      have hl : '|' ∉ l := fun hm => h (List.mem_cons_of_mem c hm)
      simp [findPipeIdx, hc, ih hl]

theorem findPipeIdx_append {A B : List Char} (h : '|' ∉ A) :
    findPipeIdx (A ++ '|' :: B) = some A.length := by
  induction A with
  | nil => simp [findPipeIdx]
  | cons c A ih =>
      have hc : c ≠ '|' := fun hc => h (hc ▸ List.mem_cons_self c A)
      have hA : '|' ∉ A := fun hm => h (List.mem_cons_of_mem c hm)
      simp [findPipeIdx, hc, ih hA]

theorem drop_append_cons_length (A : List Char) (c : Char) (B : List Char) :
    (A ++ c :: B).drop (A.length + 1) = B := by
  have : A ++ c :: B = (A ++ [c]) ++ B := by simp
  rw [this, show A.length + 1 = (A ++ [c]).length from by simp]
  exact List.drop_left (A ++ [c]) B

/-- Completeness of the split for a key decomposed along its first two
pipes: the split returns exactly the three delimited parts. -/
theorem splitLabelKey_complete {A B C : List Char} (hA : '|' ∉ A) (hB : '|' ∉ B)
    (hC : C ≠ []) : splitLabelKey (A ++ '|' :: B ++ '|' :: C) = [A, B, C] := by
  have hidx₁ : indexOfPipe (A ++ '|' :: B ++ '|' :: C) 0 = some A.length := by
    unfold indexOfPipe
    rw [List.drop_zero, show A ++ '|' :: B ++ '|' :: C = A ++ '|' :: (B ++ '|' :: C) from by simp,
      findPipeIdx_append hA]
    simp
  have hdrop₁ : (A ++ '|' :: B ++ '|' :: C).drop (A.length + 1) = B ++ '|' :: C := by
    rw [show A ++ '|' :: B ++ '|' :: C = A ++ '|' :: (B ++ '|' :: C) from by simp]
    exact drop_append_cons_length A '|' (B ++ '|' :: C)
  have hidx₂ : indexOfPipe (A ++ '|' :: B ++ '|' :: C) (A.length + 1)
      = some (A.length + 1 + B.length) := by
    unfold indexOfPipe
    rw [hdrop₁, findPipeIdx_append hB]
    simp [Nat.add_comm]
  unfold splitLabelKey
  rw [hidx₁]
  dsimp only
  rw [hidx₂]
  dsimp only
  have htake₁ : (A ++ '|' :: B ++ '|' :: C).take A.length = A := by
    rw [show A ++ '|' :: B ++ '|' :: C = A ++ '|' :: (B ++ '|' :: C) from by simp]
    exact List.take_left A _
  have htake₂ : ((A ++ '|' :: B ++ '|' :: C).drop (A.length + 1)).take
      (A.length + 1 + B.length - (A.length + 1)) = B := by
    rw [hdrop₁, show A.length + 1 + B.length - (A.length + 1) = B.length from by omega]
    exact List.take_left B _
  have hlen : (A ++ '|' :: B ++ '|' :: C).length
      = A.length + 1 + B.length + 1 + C.length := by
    simp
    omega
  have hcond : A.length + 1 + B.length + 1 < (A ++ '|' :: B ++ '|' :: C).length := by
    rw [hlen]
    have : 0 < C.length := List.length_pos.mpr hC
    omega
  have hdrop₂ : (A ++ '|' :: B ++ '|' :: C).drop (A.length + 1 + B.length + 1) = C := by
    have : A ++ '|' :: B ++ '|' :: C = (A ++ '|' :: B ++ ['|']) ++ C := by simp
    rw [this, show A.length + 1 + B.length + 1 = (A ++ '|' :: B ++ ['|']).length from by
      simp; omega]
    exact List.drop_left _ C
  rw [htake₁, htake₂, if_pos hcond, hdrop₂]

theorem first_pipe_decomp {L : List Char} (h : '|' ∈ L) :
    ∃ A R, L = A ++ '|' :: R ∧ '|' ∉ A := by
  induction L with
  | nil => cases h
  | cons c l ih =>
      by_cases hc : c = '|'
      · exact ⟨[], l, by rw [hc]; rfl, by simp⟩
      · have hl : '|' ∈ l := by
          rcases List.mem_cons.mp h with h | h
          · exact absurd h.symm hc
          · exact h
        rcases ih hl with ⟨A, R, h1, h2⟩
        refine ⟨c :: A, R, by rw [h1]; rfl, ?_⟩
        intro hm
        rcases List.mem_cons.mp hm with hm | hm
        · exact hc hm.symm
        · exact h2 hm

theorem itoa_ne_nil (i : Int) : itoa i ≠ [] := by
  unfold itoa
  by_cases h : i < 0
  · simp [h]
  · simp only [h, if_false]
    exact natDigits_ne_nil _

theorem indexOfPipe_eq_some {s : List Char} {start i : Nat}
    (h : indexOfPipe s start = some i) :
    ∃ j, findPipeIdx (s.drop start) = some j ∧ i = start + j := by
  unfold indexOfPipe at h
  rcases hf : findPipeIdx (s.drop start) with _ | j
  · rw [hf] at h; cases h
  · rw [hf] at h
    refine ⟨j, rfl, ?_⟩
    simpa using h.symm

/-- Soundness of the split: a three-part result reconstructs the key, and the
first two parts are pipe-free. -/
theorem splitLabelKey_sound {key a b c : List Char}
    (h : splitLabelKey key = [a, b, c]) :
    key = a ++ '|' :: b ++ '|' :: c ∧ '|' ∉ a ∧ '|' ∉ b := by
  unfold splitLabelKey at h
  rcases h₁ : indexOfPipe key 0 with _ | i₁
  · rw [h₁] at h
    dsimp only at h
    by_cases hl : 0 < key.length
    · rw [if_pos hl] at h
      cases h
    · rw [if_neg hl] at h
      cases h
  · rw [h₁] at h
    dsimp only at h
    rcases indexOfPipe_eq_some h₁ with ⟨j₁, hj₁, hji₁⟩
    rw [List.drop_zero] at hj₁
    have hi₁ : i₁ = j₁ := by omega
    rw [hi₁] at h
    rcases findPipeIdx_decomp hj₁ with ⟨hk₁, hnp₁⟩
    rcases h₂ : indexOfPipe key (j₁ + 1) with _ | i₂
    · rw [h₂] at h
      dsimp only at h
      by_cases hl : j₁ + 1 < key.length
      · rw [if_pos hl] at h
        cases h
      · rw [if_neg hl] at h
        cases h
    · rw [h₂] at h
      dsimp only at h
      rcases indexOfPipe_eq_some h₂ with ⟨j₂, hj₂, hji₂⟩
      rcases findPipeIdx_decomp hj₂ with ⟨hk₂, hnp₂⟩
      by_cases hl : i₂ + 1 < key.length
      · rw [if_pos hl] at h
        simp only [List.cons.injEq, and_true] at h
        rcases h with ⟨ha, hb, hc⟩
        have hb' : b = (key.drop (j₁ + 1)).take j₂ := by
          rw [← hb]
          congr 1 <;> omega
        have hc' : c = (key.drop (j₁ + 1)).drop (j₂ + 1) := by
          rw [← hc, List.drop_drop]
          congr 1 <;> omega
        refine ⟨?_, ?_, ?_⟩
        · rw [← ha, hb', hc']
          conv_lhs => rw [hk₁, hk₂]
          simp
        · rw [← ha]; exact hnp₁
        · rw [hb']; exact hnp₂
      · rw [if_neg hl] at h
        cases h

/-- Every label key built by the collector splits into exactly three parts;
when the display name is pipe-free they are the name and the two rendered
ids. -/
theorem splitLabelKey_labelKey (n : List Char) (t p : Int) :
    ∃ a b c, splitLabelKey (labelKey n t p) = [a, b, c] ∧
      ('|' ∉ n → a = n ∧ b = itoa t ∧ c = itoa p) := by
  have htp : '|' ∉ itoa t := fun hm => itoa_chars t '|' hm rfl
  have hpp : '|' ∉ itoa p := fun hm => itoa_chars p '|' hm rfl
  by_cases hn : '|' ∈ n
  · rcases first_pipe_decomp hn with ⟨n₀, n₁, hdec, hn₀⟩
    by_cases hn₁ : '|' ∈ n₁
    · rcases first_pipe_decomp hn₁ with ⟨n₂, n₃, hdec₂, hn₂⟩
      refine ⟨n₀, n₂, n₃ ++ '|' :: itoa t ++ '|' :: itoa p, ?_, fun hc => absurd hn hc⟩
      have : labelKey n t p = n₀ ++ '|' :: n₂ ++ '|' :: (n₃ ++ '|' :: itoa t ++ '|' :: itoa p) := by
        unfold labelKey
        rw [hdec, hdec₂]
        simp
      rw [this]
      exact splitLabelKey_complete hn₀ hn₂ (by simp)
    · refine ⟨n₀, n₁, itoa t ++ '|' :: itoa p, ?_, fun hc => absurd hn hc⟩
      have : labelKey n t p = n₀ ++ '|' :: n₁ ++ '|' :: (itoa t ++ '|' :: itoa p) := by
        unfold labelKey
        rw [hdec]
        simp
      rw [this]
      exact splitLabelKey_complete hn₀ hn₁ (by
        intro hx
        exact absurd (List.append_eq_nil.mp hx).2 (by simp))
  · refine ⟨n, itoa t, itoa p, ?_, fun _ => ⟨rfl, rfl, rfl⟩⟩
    exact splitLabelKey_complete hn htp (itoa_ne_nil p)

/-! ## The scrape cycle of `Collector.collectMetrics` -/

/-- The slice of `k6client.TestRun` the collector reads.  `cost` is the Go
`*Cost` pointer with its `VUH` value (carried as `Int`; no claim computes
with it).  `statusDetailsTestName` is `StatusDetails["test_name"]` when that
entry is present and is a string. -/
structure K6TestRun where
  id : Int
  testID : Int
  projectID : Int
  startedBy : String
  created : Int
  ended : Option Int
  status : String
  statusDetailsTestName : Option (List Char)
  result : Option String
  cost : Option Int
  deriving DecidableEq, Repr

/-- One metric observation sent on the channel during a cycle.  Label values
that Go renders with `strconv.Itoa` or takes from `splitLabelKey` are
`List Char`. -/
inductive Metric where
  | info (testName testID projectID runID : List Char)
  | duration (testName testID projectID : List Char) (status : String) (value : Int)
  | vuh (testName testID projectID runID : List Char) (value : Int)
  | statusGauge (testName testID projectID : List Char) (status : String) (value : Nat)
  | runTotal (testName : String) (testID projectID : List Char) (status : String)
  | resultTotal (testName : String) (testID projectID : List Char) (result : String)
  deriving DecidableEq, Repr

/-- Inputs a cycle draws from outside the store: the test-name cache (Go
`getTestName`, returning "" — here `[]` — on a miss) and the current time. -/
structure CollectEnv where
  cacheName : Int → List Char
  now : Int

/-- Test-name resolution of `collectMetrics` (cache, else status details,
else the synthesized `test_<id>` placeholder). -/
def resolveTestName (env : CollectEnv) (run : K6TestRun) : List Char :=
  let n := env.cacheName run.testID
  if n = [] then
    match run.statusDetailsTestName with
    | some s => s
    | none => "test_".data ++ itoa run.testID
  else n

/-- TestRun.GetVUH. -/
def getVUH (run : K6TestRun) : Int :=
  match run.cost with
  | none => 0
  | some v => v

/-- TestRun.GetDuration, with the seconds conversion abstracted away: the end
time minus creation when ended, else now minus creation. -/
def getDuration (now : Int) (run : K6TestRun) : Int :=
  match run.ended with
  | none => now - run.created
  | some e => e - run.created

/-- The `state.TestRunState` literal that `collectMetrics` builds for a
fetched run before calling `UpdateTestRun`. -/
def runToState (env : CollectEnv) (run : K6TestRun) : TestRunState :=
  { TestRunID := run.id
    TestID := run.testID
    ProjectID := run.projectID
    TestName := String.mk (resolveTestName env run)
    CurrentStatus := run.status
    StatusHistory := []
    LastUpdated := 0
    Created := run.created
    Ended := run.ended
    Result := run.result
    StartedBy := run.startedBy
    VUH := getVUH run }

/-- `statusCounts[run.Status][labelKey]++` on the nested Go maps (a missing
inner map or entry counts as zero). -/
def bumpNested (m : List (String × List (List Char × Nat))) (status : String)
    (key : List Char) : List (String × List (List Char × Nat)) :=
  let inner := (alookup status m).getD []
  let c := (alookup key inner).getD 0
  aset status (aset key (c + 1) inner) m

/-- The metric observations the per-run loop sends for one run (info, then
duration, then VUH when a positive cost is present). -/
def perRunEmissions (env : CollectEnv) (run : K6TestRun) : List Metric :=
  let testName := resolveTestName env run
  [Metric.info testName (itoa run.testID) (itoa run.projectID) (itoa run.id),
   Metric.duration testName (itoa run.testID) (itoa run.projectID) run.status
     (getDuration env.now run)] ++
  (match run.cost with
   | some v => if 0 < v then
       [Metric.vuh testName (itoa run.testID) (itoa run.projectID) (itoa run.id) v]
     else []
   | none => [])

/-- Accumulator of the per-run loop: the store being mutated, the in-cycle
status grouping, and the observations sent so far.  (The loop also builds
`resultCounts` and `activeRuns`; neither is ever read afterwards, so they
are omitted.) -/
structure PerRunAcc where
  store : Store
  statusCounts : List (String × List (List Char × Nat))
  emissions : List Metric

/-- One iteration of the per-run loop of `collectMetrics`. -/
def processRun (env : CollectEnv) (acc : PerRunAcc) (run : K6TestRun) : PerRunAcc :=
  let testName := resolveTestName env run
  { store := UpdateTestRun acc.store (runToState env run) env.now
    statusCounts := bumpNested acc.statusCounts run.status
      (labelKey testName run.testID run.projectID)
    emissions := acc.emissions ++ perRunEmissions env run }

/-- The fixed status enumeration of `collectMetrics`. -/
def allStatuses : List String :=
  ["created", "initializing", "running", "processing_metrics", "completed", "aborted"]

/-- Body of the status-gauge loop: one observation for a grouping entry,
labelled through `splitLabelKey`, skipped unless it yields three parts. -/
def gaugeOfEntry (status : String) (kc : List Char × Nat) : List Metric :=
  match splitLabelKey kc.1 with
  | [a, b, c] => [Metric.statusGauge a b c status kc.2]
  | _ => []

/-- The per-status round of the status-gauge loop (`continue` on a status
with no grouped runs). -/
def gaugeBlockOf (counts : List (String × List (List Char × Nat)))
    (status : String) : List Metric :=
  match alookup status counts with
  | none => []
  | some inner => inner.flatMap (gaugeOfEntry status)

/-- The status-gauge loop of `collectMetrics`. -/
def statusGaugeEmissions (counts : List (String × List (List Char × Nat))) : List Metric :=
  allStatuses.flatMap (gaugeBlockOf counts)

/-- The history loop: one total counter per observed status of each tracked
record, plus a result counter when a result is recorded. -/
def historyEmissions (s : Store) : List Metric :=
  (GetAllStates s).flatMap (fun rs =>
    rs.StatusHistory.map (fun q =>
      Metric.runTotal rs.TestName (itoa rs.TestID) (itoa rs.ProjectID) q.1) ++
    (match rs.Result with
     | some r => [Metric.resultTotal rs.TestName (itoa rs.TestID) (itoa rs.ProjectID) r]
     | none => []))

/-- collectMetrics: on fetch failure return the wrapped error without
touching the store or sending run metrics; otherwise run the per-run loop,
the gauge loop and the history loop. -/
def collectMetrics (env : CollectEnv) (fetched : Except String (List K6TestRun))
    (s : Store) : Except String Unit × List Metric × Store :=
  match fetched with
  | Except.error e => (Except.error ("fetch test runs: " ++ e), [], s)
  | Except.ok runs =>
      let acc := runs.foldl (processRun env) ⟨s, [], []⟩
      (Except.ok (),
       acc.emissions ++ statusGaugeEmissions acc.statusCounts ++ historyEmissions acc.store,
       acc.store)

/-- Increment of a labelled counter vector. -/
def bumpCounter (f : String → Nat) (label : String) : String → Nat :=
  fun x => if x = label then f x + 1 else f x

/-- Collector.Collect around one `collectMetrics` call: a failed test-cache
refresh and a failed fetch each increment the scrape-error counter under
their label; the cycle always returns.  The result is the observations sent,
the store afterwards, and the error counter afterwards. -/
def CollectCycle (env : CollectEnv) (fetched : Except String (List K6TestRun))
    (tcacheFailed : Bool) (s : Store) (errs : String → Nat) :
    List Metric × Store × (String → Nat) :=
  let errs := if tcacheFailed then bumpCounter errs "test_cache" else errs
  match collectMetrics env fetched s with
  | (Except.error _, ems, s₂) => (ems, s₂, bumpCounter errs "collect")
  | (Except.ok _, ems, s₂) => (ems, s₂, errs)

/-- C8: when the run fetch fails, the cycle emits no run metrics, leaves the
state store exactly as it was, ends cleanly (the embedded cycle is a total
function returning the wrapped fetch error), and increments the
scrape-error counter with the `collect` label, leaving other labels
untouched. -/
theorem CollectCycle_fetch_error (env : CollectEnv) (e : String) (tcacheFailed : Bool)
    (s : Store) (errs : String → Nat) :
    (CollectCycle env (Except.error e) tcacheFailed s errs).1 = [] ∧
    (CollectCycle env (Except.error e) tcacheFailed s errs).2.1 = s ∧
    ((CollectCycle env (Except.error e) tcacheFailed s errs).2.2 "collect"
        = errs "collect" + 1) ∧
    (∀ label, label ≠ "collect" → label ≠ "test_cache" →
      (CollectCycle env (Except.error e) tcacheFailed s errs).2.2 label = errs label) ∧
    (collectMetrics env (Except.error e) s).1 = Except.error ("fetch test runs: " ++ e) := by
  refine ⟨rfl, rfl, ?_, ?_, rfl⟩
  · cases tcacheFailed <;> simp [CollectCycle, collectMetrics, bumpCounter]
  · intro label h1 h2
    cases tcacheFailed <;> simp [CollectCycle, collectMetrics, bumpCounter, h1, h2]

/-- Concrete instantiation of `CollectCycle_fetch_error`. -/
theorem CollectCycle_fetch_error_witness :
    (CollectCycle ⟨fun _ => [], 0⟩ (Except.error "boom") false [] (fun _ => 0)).2.2 "collect"
      = 1 :=
  (CollectCycle_fetch_error ⟨fun _ => [], 0⟩ "boom" false [] (fun _ => 0)).2.2.1

/-! ## Claim C7: the status-gauge emissions -/

/-- The grouping key of a fetched run. -/
def keyOf (env : CollectEnv) (run : K6TestRun) : List Char :=
  labelKey (resolveTestName env run) run.testID run.projectID

/-- Read of the nested grouping map, with Go's missing-entry-is-zero
semantics. -/
def lookupNested (m : List (String × List (List Char × Nat))) (status : String)
    (key : List Char) : Nat :=
  (alookup key ((alookup status m).getD [])).getD 0

theorem alookup_of_mem {κ α : Type} [DecidableEq κ] {m : List (κ × α)}
    (hn : akeysNodup m) {q : κ × α} (hq : q ∈ m) : alookup q.1 m = some q.2 := by
  induction m with
  | nil => cases hq
  | cons p l ih =>
      unfold akeysNodup at hn
      simp only [List.map_cons, List.nodup_cons] at hn
      rcases List.mem_cons.mp hq with hq | hq
      · subst hq
        simp [alookup]
      · have hne : p.1 ≠ q.1 := by
          intro hpe
          exact hn.1 (hpe ▸ List.mem_map_of_mem Prod.fst hq)
        simp only [alookup, hne, if_false]
        exact ih hn.2 hq

theorem lookupNested_bump (m : List (String × List (List Char × Nat)))
    (st : String) (k : List Char) (status : String) (key : List Char) :
    lookupNested (bumpNested m st k) status key =
      lookupNested m status key + (if st = status ∧ k = key then 1 else 0) := by
  unfold bumpNested lookupNested
  by_cases hs : st = status
  · subst hs
    rw [alookup_aset_self]
    by_cases hk : k = key
    · subst hk
      simp [alookup_aset_self]
    · rw [Option.getD_some, alookup_aset_of_ne (fun he => hk he.symm)]
      simp [hk]
  · rw [alookup_aset_of_ne (fun he => hs he.symm)]
    simp [hs]

theorem lookupNested_foldl (env : CollectEnv) (runs : List K6TestRun)
    (m : List (String × List (List Char × Nat))) (status : String) (key : List Char) :
    lookupNested (runs.foldl (fun acc r => bumpNested acc r.status (keyOf env r)) m)
        status key =
      lookupNested m status key +
        runs.countP (fun r => decide (r.status = status ∧ keyOf env r = key)) := by
  induction runs generalizing m with
  | nil => simp
  | cons r runs ih =>
      simp only [List.foldl_cons, List.countP_cons]
      rw [ih, lookupNested_bump]
      by_cases hr : r.status = status ∧ keyOf env r = key
      · simp [hr]
        omega
      · simp [hr]

/-- Structural invariant of the grouping map: distinct keys at both levels,
and strictly positive counts. -/
def CountsWF (m : List (String × List (List Char × Nat))) : Prop :=
  akeysNodup m ∧ ∀ q ∈ m, akeysNodup q.2 ∧ ∀ kc ∈ q.2, 0 < kc.2

theorem bumpNested_wf {m : List (String × List (List Char × Nat))}
    (h : CountsWF m) (st : String) (k : List Char) : CountsWF (bumpNested m st k) := by
  unfold bumpNested CountsWF
  constructor
  · exact aset_keysNodup st _ h.1
  · intro q hq
    rcases mem_aset hq with hq | hq
    · subst hq
      constructor
      · rcases hin : alookup st m with _ | inner
        · simp [hin, akeysNodup, aset]
        · have := (h.2 (st, inner) (alookup_mem hin)).1
          simp only [hin, Option.getD_some]
          exact aset_keysNodup k _ this
      · intro kc hkc
        rcases hin : alookup st m with _ | inner
        · simp only [hin, Option.getD_none] at hkc
          rcases mem_aset hkc with hkc | hkc
          · subst hkc; omega
          · cases hkc
        · simp only [hin, Option.getD_some] at hkc
          rcases mem_aset hkc with hkc | hkc
          · subst hkc; omega
          · exact (h.2 (st, inner) (alookup_mem hin)).2 kc hkc
    · exact h.2 q hq

theorem countsOf_foldl_wf (env : CollectEnv) (runs : List K6TestRun)
    {m : List (String × List (List Char × Nat))} (h : CountsWF m) :
    CountsWF (runs.foldl (fun acc r => bumpNested acc r.status (keyOf env r)) m) := by
  induction runs generalizing m with
  | nil => exact h
  | cons r runs ih => exact ih (bumpNested_wf h r.status (keyOf env r))

theorem processRun_foldl_statusCounts (env : CollectEnv) (runs : List K6TestRun)
    (a : PerRunAcc) :
    (runs.foldl (processRun env) a).statusCounts =
      runs.foldl (fun m r => bumpNested m r.status (keyOf env r)) a.statusCounts := by
  induction runs generalizing a with
  | nil => rfl
  | cons r runs ih => exact ih _

theorem processRun_foldl_emissions (env : CollectEnv) (runs : List K6TestRun)
    (a : PerRunAcc) :
    (runs.foldl (processRun env) a).emissions =
      a.emissions ++ runs.flatMap (perRunEmissions env) := by
  induction runs generalizing a with
  | nil => simp
  | cons r runs ih =>
      simp only [List.foldl_cons, List.flatMap_cons]
      rw [ih]
      simp [processRun]

theorem mem_gaugeOfEntry {status : String} {kc : List Char × Nat} {x : Metric}
    (h : x ∈ gaugeOfEntry status kc) :
    ∃ a b c, splitLabelKey kc.1 = [a, b, c] ∧
      x = Metric.statusGauge a b c status kc.2 := by
  unfold gaugeOfEntry at h
  rcases hsp : splitLabelKey kc.1 with _ | ⟨a, _ | ⟨b, _ | ⟨c, _ | ⟨d, l⟩⟩⟩⟩ <;>
    rw [hsp] at h
  · cases h
  · cases h
  · cases h
  · exact ⟨a, b, c, rfl, by simpa using h⟩
  · cases h

theorem count_gaugeOfEntry_ne {st status : String} (h : st ≠ status)
    (kc : List Char × Nat) (a b c : List Char) (v : Nat) :
    (gaugeOfEntry st kc).count (Metric.statusGauge a b c status v) = 0 := by
  rw [List.count_eq_zero]
  intro hm
  rcases mem_gaugeOfEntry hm with ⟨x, y, z, _, hx⟩
  cases hx
  exact h rfl

theorem count_gaugeOfEntry (status : String) (kc : List Char × Nat)
    (a b c : List Char) (v : Nat) :
    (gaugeOfEntry status kc).count (Metric.statusGauge a b c status v) =
      if splitLabelKey kc.1 = [a, b, c] ∧ kc.2 = v then 1 else 0 := by
  unfold gaugeOfEntry
  rcases hsp : splitLabelKey kc.1 with _ | ⟨x, _ | ⟨y, _ | ⟨z, _ | ⟨w, l⟩⟩⟩⟩
  · simp
  · simp
  · simp
  · by_cases hm : x = a ∧ y = b ∧ z = c ∧ kc.2 = v
    · rcases hm with ⟨h1, h2, h3, h4⟩
      subst h1; subst h2; subst h3
      simp [List.count_cons, h4]
    · have hne : Metric.statusGauge a b c status v ≠ Metric.statusGauge x y z status kc.2 := by
        intro he
        cases he
        exact hm ⟨rfl, rfl, rfl, rfl⟩
      have hcond : ¬ ([x, y, z] = [a, b, c] ∧ kc.2 = v) := by
        rintro ⟨he, hv⟩
        simp only [List.cons.injEq, and_true] at he
        exact hm ⟨he.1, he.2.1, he.2.2, hv⟩
      simp only [hcond, if_false]
      simp [List.count_cons, hne]
  · simp

theorem count_gauge_inner_zero {inner : List (List Char × Nat)}
    {a b c : List Char} {v : Nat} {status : String}
    (h : ∀ kc ∈ inner, kc.1 ≠ a ++ '|' :: b ++ '|' :: c) :
    (inner.flatMap (gaugeOfEntry status)).count (Metric.statusGauge a b c status v) = 0 := by
  induction inner with
  | nil => rfl
  | cons kc rest ih =>
      rw [List.flatMap_cons, List.count_append, count_gaugeOfEntry]
      have hcond : ¬ (splitLabelKey kc.1 = [a, b, c] ∧ kc.2 = v) := by
        rintro ⟨hsp, _⟩
        exact h kc (List.mem_cons_self kc rest) (splitLabelKey_sound hsp).1
      rw [if_neg hcond, ih (fun q hq => h q (List.mem_cons_of_mem kc hq))]

theorem count_gauge_inner_nosplit {inner : List (List Char × Nat)}
    {a b c : List Char} {v : Nat} {status : String}
    (hsp : splitLabelKey (a ++ '|' :: b ++ '|' :: c) ≠ [a, b, c]) :
    (inner.flatMap (gaugeOfEntry status)).count (Metric.statusGauge a b c status v) = 0 := by
  induction inner with
  | nil => rfl
  | cons kc rest ih =>
      rw [List.flatMap_cons, List.count_append, count_gaugeOfEntry]
      have hcond : ¬ (splitLabelKey kc.1 = [a, b, c] ∧ kc.2 = v) := by
        rintro ⟨hx, _⟩
        exact hsp ((splitLabelKey_sound hx).1 ▸ hx)
      rw [if_neg hcond, ih]

theorem count_gauge_inner {inner : List (List Char × Nat)} (hn : akeysNodup inner)
    {a b c : List Char} {v : Nat} {status : String} :
    (inner.flatMap (gaugeOfEntry status)).count (Metric.statusGauge a b c status v) =
      if alookup (a ++ '|' :: b ++ '|' :: c) inner = some v ∧
         splitLabelKey (a ++ '|' :: b ++ '|' :: c) = [a, b, c] then 1 else 0 := by
  by_cases hsp : splitLabelKey (a ++ '|' :: b ++ '|' :: c) = [a, b, c]
  · induction inner with
    | nil => simp [alookup]
    | cons kc rest ih =>
        unfold akeysNodup at hn
        simp only [List.map_cons, List.nodup_cons] at hn
        rw [List.flatMap_cons, List.count_append, count_gaugeOfEntry]
        by_cases hk : kc.1 = a ++ '|' :: b ++ '|' :: c
        · have hrest : (rest.flatMap (gaugeOfEntry status)).count
              (Metric.statusGauge a b c status v) = 0 := by
            apply count_gauge_inner_zero
            intro q hq hqe
            exact hn.1 (hk ▸ hqe ▸ List.mem_map_of_mem Prod.fst hq)
          rw [hrest]
          have hlk : alookup (a ++ '|' :: b ++ '|' :: c) (kc :: rest) = some kc.2 := by
            simp [alookup, hk]
          rw [hlk]
          by_cases hv : kc.2 = v
          · rw [if_pos ⟨by rw [hk]; exact hsp, hv⟩, if_pos ⟨by rw [hv], hsp⟩]
          · rw [if_neg (fun hx => hv hx.2),
              if_neg (fun hx => hv (Option.some_inj.mp hx.1))]
        · have hcond : ¬ (splitLabelKey kc.1 = [a, b, c] ∧ kc.2 = v) := by
            rintro ⟨hx, _⟩
            exact hk (splitLabelKey_sound hx).1
          rw [if_neg hcond]
          have hlk : alookup (a ++ '|' :: b ++ '|' :: c) (kc :: rest) =
              alookup (a ++ '|' :: b ++ '|' :: c) rest := by
            have hk₂ : ¬ kc.1 = a ++ '|' :: (b ++ '|' :: c) := by simpa using hk
            simp [alookup, hk₂]
          rw [hlk, ih hn.2]
          omega
  · rw [if_neg (fun hx => hsp hx.2)]
    exact count_gauge_inner_nosplit hsp

theorem count_gaugeOfEntry_flatMap_ne {st status : String} (h : st ≠ status)
    (inner : List (List Char × Nat)) (a b c : List Char) (v : Nat) :
    (inner.flatMap (gaugeOfEntry st)).count (Metric.statusGauge a b c status v) = 0 := by
  induction inner with
  | nil => rfl
  | cons kc rest ih =>
      rw [List.flatMap_cons, List.count_append, count_gaugeOfEntry_ne h, ih]

theorem count_gaugeBlock_ne {counts : List (String × List (List Char × Nat))}
    {st status : String} (h : st ≠ status) (a b c : List Char) (v : Nat) :
    (gaugeBlockOf counts st).count (Metric.statusGauge a b c status v) = 0 := by
  unfold gaugeBlockOf
  cases hin : alookup st counts with
  | none => rfl
  | some inner =>
      dsimp only
      exact count_gaugeOfEntry_flatMap_ne h inner a b c v

theorem count_gauge_statuses_zero {counts : List (String × List (List Char × Nat))}
    {l : List String} {status : String} {a b c : List Char} {v : Nat}
    (h : status ∉ l) :
    (l.flatMap (gaugeBlockOf counts)).count (Metric.statusGauge a b c status v) = 0 := by
  induction l with
  | nil => rfl
  | cons st l ih =>
      have hne : st ≠ status := by
        intro he
        exact h (he ▸ List.mem_cons_self st l)
      rw [List.flatMap_cons, List.count_append, count_gaugeBlock_ne hne,
        ih (fun hm => h (List.mem_cons_of_mem st hm))]

theorem count_gauge_statuses {counts : List (String × List (List Char × Nat))}
    {l : List String} (hnd : l.Nodup) {status : String} (hin : status ∈ l)
    {a b c : List Char} {v : Nat} :
    (l.flatMap (gaugeBlockOf counts)).count (Metric.statusGauge a b c status v) =
      (gaugeBlockOf counts status).count (Metric.statusGauge a b c status v) := by
  induction l with
  | nil => cases hin
  | cons st l ih =>
      simp only [List.nodup_cons] at hnd
      rw [List.flatMap_cons, List.count_append]
      by_cases hst : st = status
      · subst hst
        rw [count_gauge_statuses_zero hnd.1]
        omega
      · have hin₂ : status ∈ l := by
          rcases List.mem_cons.mp hin with h | h
          · exact absurd h.symm hst
          · exact h
        rw [count_gaugeBlock_ne hst, ih hnd.2 hin₂]
        omega

theorem gauge_not_mem_perRun (env : CollectEnv) (r : K6TestRun)
    {a b c : List Char} {status : String} {v : Nat} :
    Metric.statusGauge a b c status v ∉ perRunEmissions env r := by
  intro hm
  unfold perRunEmissions at hm
  rcases List.mem_append.mp hm with hm | hm
  · rcases List.mem_cons.mp hm with hm | hm
    · cases hm
    · rcases List.mem_cons.mp hm with hm | hm
      · cases hm
      · cases hm
  · rcases hc : r.cost with _ | w <;> rw [hc] at hm <;> dsimp only at hm
    · cases hm
    · by_cases h0 : 0 < w
      · rw [if_pos h0] at hm
        cases List.mem_singleton.mp hm
      · rw [if_neg h0] at hm
        cases hm

theorem gauge_not_mem_perRun_all (env : CollectEnv) (runs : List K6TestRun)
    {a b c : List Char} {status : String} {v : Nat} :
    Metric.statusGauge a b c status v ∉ runs.flatMap (perRunEmissions env) := by
  intro hm
  rcases List.mem_flatMap.mp hm with ⟨r, _, hx⟩
  exact gauge_not_mem_perRun env r hx

theorem gauge_not_mem_history (s : Store)
    {a b c : List Char} {status : String} {v : Nat} :
    Metric.statusGauge a b c status v ∉ historyEmissions s := by
  intro hm
  unfold historyEmissions at hm
  rcases List.mem_flatMap.mp hm with ⟨rs, _, hx⟩
  rcases List.mem_append.mp hx with hx | hx
  · rcases List.mem_map.mp hx with ⟨q, _, hq⟩
    cases hq
  · rcases hr : rs.Result with _ | w <;> rw [hr] at hx
    · cases hx
    · cases List.mem_singleton.mp hx

/-- All run observations of one cycle with a successful fetch. -/
def emissionsOf (env : CollectEnv) (runs : List K6TestRun) (s : Store) : List Metric :=
  (collectMetrics env (Except.ok runs) s).2.1

/-- Number of fetched snapshots in the (display name, test id, project id,
status) group. -/
def groupSize (env : CollectEnv) (runs : List K6TestRun) (n : List Char)
    (t p : Int) (status : String) : Nat :=
  runs.countP (fun r => decide (resolveTestName env r = n ∧ r.testID = t ∧
    r.projectID = p ∧ r.status = status))

theorem countP_ext {α : Type} (p q : α → Bool) (h : ∀ a, p a = q a) (l : List α) :
    l.countP p = l.countP q := by
  induction l with
  | nil => rfl
  | cons x l ih => simp [List.countP_cons, h, ih]

theorem keyOf_eq_iff (env : CollectEnv) (r : K6TestRun) (n : List Char) (t p : Int) :
    keyOf env r = labelKey n t p ↔
      (resolveTestName env r = n ∧ r.testID = t ∧ r.projectID = p) := by
  constructor
  · intro h
    exact labelKey_inj h
  · rintro ⟨h1, h2, h3⟩
    unfold keyOf
    rw [h1, h2, h3]

theorem groupSize_eq_countP (env : CollectEnv) (runs : List K6TestRun)
    (n : List Char) (t p : Int) (status : String) :
    groupSize env runs n t p status =
      runs.countP (fun r => decide (r.status = status ∧ keyOf env r = labelKey n t p)) := by
  unfold groupSize
  apply countP_ext
  intro r
  have : (resolveTestName env r = n ∧ r.testID = t ∧ r.projectID = p ∧ r.status = status) ↔
      (r.status = status ∧ keyOf env r = labelKey n t p) := by
    rw [keyOf_eq_iff]
    tauto
  simp only [decide_eq_decide]
  exact this

theorem emissionsOf_eq (env : CollectEnv) (runs : List K6TestRun) (s : Store) :
    emissionsOf env runs s =
      runs.flatMap (perRunEmissions env) ++
      statusGaugeEmissions
        (runs.foldl (fun m r => bumpNested m r.status (keyOf env r)) []) ++
      historyEmissions (runs.foldl (processRun env) ⟨s, [], []⟩).store := by
  unfold emissionsOf collectMetrics
  dsimp only
  rw [processRun_foldl_emissions, processRun_foldl_statusCounts]
  simp

/-- C7 (amended): for every batch of fetched snapshots and every non-empty
group (display name, test id, project id, status) whose status belongs to
the fixed enumeration, the cycle emits the status gauge exactly once with
value equal to the group size and label values obtained by splitting the
joined `name|testID|projectID` key at its first two '|' characters — equal
to the group's own fields whenever the display name contains no '|'; and
conversely every status-gauge observation of the cycle carries a status of
the enumeration, a positive value, and belongs to such a non-empty group. -/
theorem statusGauge_spec (env : CollectEnv) (runs : List K6TestRun) (s : Store) :
    (∀ n t p status, status ∈ allStatuses →
      0 < groupSize env runs n t p status →
      ∃ a b c, splitLabelKey (labelKey n t p) = [a, b, c] ∧
        (emissionsOf env runs s).count
          (Metric.statusGauge a b c status (groupSize env runs n t p status)) = 1 ∧
        ('|' ∉ n → a = n ∧ b = itoa t ∧ c = itoa p)) ∧
    (∀ a b c status v,
      Metric.statusGauge a b c status v ∈ emissionsOf env runs s →
      status ∈ allStatuses ∧ 0 < v ∧
      ∃ n t p, splitLabelKey (labelKey n t p) = [a, b, c] ∧
        v = groupSize env runs n t p status) := by
  have hwfc : CountsWF (runs.foldl (fun m r => bumpNested m r.status (keyOf env r)) []) :=
    countsOf_foldl_wf env runs ⟨List.nodup_nil, by intro q hq; cases hq⟩
  have hlook : ∀ status key,
      lookupNested (runs.foldl (fun m r => bumpNested m r.status (keyOf env r)) []) status key
        = runs.countP (fun r => decide (r.status = status ∧ keyOf env r = key)) := by
    intro status key
    rw [lookupNested_foldl]
    simp [lookupNested, alookup]
  set counts := runs.foldl (fun m r => bumpNested m r.status (keyOf env r)) [] with hcounts
  constructor
  · intro n t p status hstat hgp
    rcases splitLabelKey_labelKey n t p with ⟨a, b, c, hsp, hnp⟩
    have hkey : labelKey n t p = a ++ '|' :: b ++ '|' :: c := (splitLabelKey_sound hsp).1
    have hval : lookupNested counts status (labelKey n t p)
        = groupSize env runs n t p status := by
      rw [hlook, groupSize_eq_countP]
    refine ⟨a, b, c, hsp, ?_, hnp⟩
    rw [emissionsOf_eq]
    rw [List.count_append, List.count_append]
    rw [List.count_eq_zero.mpr (gauge_not_mem_perRun_all env runs),
      List.count_eq_zero.mpr (gauge_not_mem_history _)]
    have hgl : 0 < lookupNested counts status (labelKey n t p) := by
      rw [hval]; exact hgp
    rcases hinl : alookup status counts with _ | inner
    · have h0 : lookupNested counts status (labelKey n t p) = 0 := by
        simp [lookupNested, hinl, alookup]
      omega
    · rcases hkl : alookup (labelKey n t p) inner with _ | w
      · have h0 : lookupNested counts status (labelKey n t p) = 0 := by
          simp [lookupNested, hinl, hkl]
        omega
      · have hw : w = groupSize env runs n t p status := by
          rw [← hval]
          simp [lookupNested, hinl, hkl]
        unfold statusGaugeEmissions
        rw [count_gauge_statuses (by decide) hstat]
        unfold gaugeBlockOf
        rw [hinl]
        dsimp only
        have hnodup : akeysNodup inner := (hwfc.2 (status, inner) (alookup_mem hinl)).1
        rw [count_gauge_inner hnodup]
        rw [if_pos ⟨by rw [← hkey, hkl, hw], by rw [← hkey]; exact hsp⟩]
  · intro a b c status v hm
    rw [emissionsOf_eq] at hm
    rcases List.mem_append.mp hm with hm | hm
    · rcases List.mem_append.mp hm with hm | hm
      · exact absurd hm (gauge_not_mem_perRun_all env runs)
      · unfold statusGaugeEmissions at hm
        rcases List.mem_flatMap.mp hm with ⟨st, hstin, hblk⟩
        unfold gaugeBlockOf at hblk
        rcases hinl : alookup st counts with _ | inner
        · rw [hinl] at hblk
          cases hblk
        · rw [hinl] at hblk
          dsimp only at hblk
          rcases List.mem_flatMap.mp hblk with ⟨kc, hkc, hx⟩
          rcases mem_gaugeOfEntry hx with ⟨x, y, z, hspk, heq⟩
          cases heq
          have hwfi := hwfc.2 (status, inner) (alookup_mem hinl)
          have hpos : 0 < kc.2 := hwfi.2 kc hkc
          have hkl : alookup kc.1 inner = some kc.2 := alookup_of_mem hwfi.1 hkc
          have hvv : lookupNested counts status kc.1 = kc.2 := by
            simp [lookupNested, hinl, hkl]
          have hcp : 0 < runs.countP
              (fun r => decide (r.status = status ∧ keyOf env r = kc.1)) := by
            rw [← hlook status kc.1, hvv]
            exact hpos
          rcases List.countP_pos.mp hcp with ⟨r, hrin, hr⟩
          simp only [decide_eq_true_eq] at hr
          refine ⟨hstin, hpos, resolveTestName env r, r.testID, r.projectID, ?_, ?_⟩
          · rw [show labelKey (resolveTestName env r) r.testID r.projectID = kc.1
              from hr.2]
            exact hspk
          · rw [← hvv, hlook status kc.1, groupSize_eq_countP]
            apply countP_ext
            intro q
            rw [show labelKey (resolveTestName env r) r.testID r.projectID = kc.1
              from hr.2]
    · exact absurd hm (gauge_not_mem_history _)

/-- C7 exactly as claimed: one gauge per non-empty group, labelled with the
group's own display name, test id, project id and status, for every status
string; none for empty groups. -/
def statusGaugeClaim (env : CollectEnv) (runs : List K6TestRun) (s : Store) : Prop :=
  ∀ n t p status,
    (0 < groupSize env runs n t p status →
      (emissionsOf env runs s).count
        (Metric.statusGauge n (itoa t) (itoa p) status
          (groupSize env runs n t p status)) = 1) ∧
    (groupSize env runs n t p status = 0 →
      ∀ v, (emissionsOf env runs s).count
        (Metric.statusGauge n (itoa t) (itoa p) status v) = 0)

/-- Cache used by the C7 counterexample: test 1 resolves to a display name
containing the '|' separator. -/
def c7Env : CollectEnv :=
  ⟨fun t => if t = 1 then "a|b".data else "c".data, 0⟩

/-- Batch used by the C7 counterexample: one run whose resolved name contains
'|', and one run whose status is outside the fixed enumeration. -/
def c7Runs : List K6TestRun :=
  [{ id := 10, testID := 1, projectID := 2, startedBy := "u", created := 0,
     ended := none, status := "running", statusDetailsTestName := none,
     result := none, cost := none },
   { id := 11, testID := 3, projectID := 4, startedBy := "u", created := 0,
     ended := none, status := "timed_out", statusDetailsTestName := none,
     result := none, cost := none }]

/-- Counterexample to C7 as stated: the non-empty group with the status
"timed_out" (outside the fixed enumeration) gets no gauge at all, and the
group whose display name is "a|b" is emitted with the labels produced by
splitting "a|b|1|2" at its first two '|' characters, not with its own
fields. -/
theorem statusGauge_claim_cex :
    ¬ statusGaugeClaim c7Env c7Runs [] ∧
    (emissionsOf c7Env c7Runs []).count
      (Metric.statusGauge ("a|b".data) (itoa 1) (itoa 2) "running" 1) = 0 ∧
    (emissionsOf c7Env c7Runs []).count
      (Metric.statusGauge ("a".data) ("b".data) ("1|2".data) "running" 1) = 1 := by
  refine ⟨?_, by decide, by decide⟩
  intro h
  have h1 := (h ("c".data) 3 4 "timed_out").1 (by decide)
  have h2 : (emissionsOf c7Env c7Runs []).count
      (Metric.statusGauge ("c".data) (itoa 3) (itoa 4) "timed_out"
        (groupSize c7Env c7Runs ("c".data) 3 4 "timed_out")) = 0 := by decide
  omega

/-- Environment of the C7 witness: every test resolves to the pipe-free
name "x". -/
def c7wEnv : CollectEnv :=
  ⟨fun _ => "x".data, 0⟩

/-- Single running snapshot of the C7 witness. -/
def c7wRun : K6TestRun :=
  { id := 5, testID := 1, projectID := 2, startedBy := "u", created := 0,
    ended := none, status := "running", statusDetailsTestName := none,
    result := none, cost := none }

/-- Concrete instantiation of `statusGauge_spec`: the group of the single
running snapshot yields exactly one gauge carrying its own labels. -/
theorem statusGauge_spec_witness :
    ∃ a b c, splitLabelKey (labelKey ("x".data) 1 2) = [a, b, c] ∧
      (emissionsOf c7wEnv [c7wRun] []).count
        (Metric.statusGauge a b c "running"
          (groupSize c7wEnv [c7wRun] ("x".data) 1 2 "running")) = 1 ∧
      ('|' ∉ "x".data → a = "x".data ∧ b = itoa 1 ∧ c = itoa 2) :=
  (statusGauge_spec c7wEnv [c7wRun] []).1 ("x".data) 1 2 "running" (by decide) (by decide)

/-! ## Claim C4: aliasing between the store and caller-visible objects

A pointer-level model of the state manager.  Go pointers become addresses
(`Nat`) into typed heaps; a `*TestRunState` is an address into `objs`, the
`map[string]time.Time` behind `StatusHistory` is an address into `maps`,
and the `*time.Time` / `*string` fields are addresses into `times` /
`strs`.  `nil` pointers are `none`. -/

/-- The in-heap layout of a `state.TestRunState` object: same fields as the
value-level `TestRunState`, but the map, end-time and result fields hold
addresses. -/
structure RObj where
  TestRunID : Int
  TestID : Int
  ProjectID : Int
  TestName : String
  CurrentStatus : String
  StatusHistory : Option Nat
  LastUpdated : Int
  Created : Int
  Ended : Option Nat
  Result : Option Nat
  StartedBy : String
  VUH : Int
  deriving DecidableEq, Repr

/-- The typed heaps plus an allocation counter: every allocated address is
below `next`, and fresh cells are taken at `next`. -/
structure Heap where
  objs : List (Nat × RObj)
  maps : List (Nat × List (String × Int))
  times : List (Nat × Int)
  strs : List (Nat × String)
  next : Nat
  deriving DecidableEq, Repr

/-- A manager together with its heap: `states` is the `map[int]*TestRunState`
holding addresses of record objects. -/
structure HState where
  heap : Heap
  states : List (Int × Nat)
  deriving DecidableEq, Repr

/-- A caller overwriting fields of the object at address `a` (mutating a
`TestRunState` it holds a pointer to). -/
def writeObj (σ : HState) (a : Nat) (o : RObj) : HState :=
  { σ with heap := { σ.heap with objs := aset a o σ.heap.objs } }

/-- A caller mutating the status-history map cell at address `a`. -/
def writeMap (σ : HState) (a : Nat) (l : List (String × Int)) : HState :=
  { σ with heap := { σ.heap with maps := aset a l σ.heap.maps } }

/-- A caller writing through a `*time.Time` (mutating `*rec.Ended`). -/
def writeTime (σ : HState) (a : Nat) (x : Int) : HState :=
  { σ with heap := { σ.heap with times := aset a x σ.heap.times } }

/-- A caller writing through a `*string` (mutating `*rec.Result`). -/
def writeStr (σ : HState) (a : Nat) (w : String) : HState :=
  { σ with heap := { σ.heap with strs := aset a w σ.heap.strs } }

/-- Manager.UpdateTestRun at the pointer level: the caller passes the address
`p` of its snapshot object.  On first insertion the store retains `p` itself
(`m.states[state.TestRunID] = state`); on update it copies field values —
including the `Ended` and `Result` pointers — into the existing object. -/
def hUpdateTestRun (σ : HState) (p : Nat) (now : Int) : HState :=
  match alookup p σ.heap.objs with
  | none => σ
  | some st =>
    if st.CurrentStatus = "completed" ∨ st.CurrentStatus = "aborted" then
      if (alookup st.TestRunID σ.states).isSome then
        { σ with states := aerase st.TestRunID σ.states }
      else σ
    else
      match alookup st.TestRunID σ.states with
      | none =>
          let m := σ.heap.next
          let heap := { σ.heap with
            maps := aset m [(st.CurrentStatus, st.Created)] σ.heap.maps
            objs := aset p { st with StatusHistory := some m, LastUpdated := now }
              σ.heap.objs
            next := σ.heap.next + 1 }
          { heap := heap, states := aset st.TestRunID p σ.states }
      | some q =>
          match alookup q σ.heap.objs with
          | none => σ
          | some ex =>
              let ex₂ := { ex with
                CurrentStatus := st.CurrentStatus
                LastUpdated := now
                Ended := st.Ended
                Result := st.Result
                VUH := st.VUH }
              let heap₁ := { σ.heap with objs := aset q ex₂ σ.heap.objs }
              let heap₂ :=
                match ex.StatusHistory with
                | none => heap₁
                | some mh =>
                    let hist := (alookup mh heap₁.maps).getD []
                    if (alookup st.CurrentStatus hist).isSome then heap₁
                    else { heap₁ with
                      maps := aset mh (hist ++ [(st.CurrentStatus, now)]) heap₁.maps }
              { σ with heap := heap₂ }

/-- The copy taken by `GetTestRunState` / `GetAllStates`: `stateCopy :=
*state` (a shallow copy, so the `Ended` and `Result` pointers are shared)
followed by a deep copy of the status-history map into a fresh cell. -/
def copyRecordObj (σ : HState) (q : Nat) : Option Nat × HState :=
  match alookup q σ.heap.objs with
  | none => (none, σ)
  | some st =>
      let m := σ.heap.next
      let r := σ.heap.next + 1
      let hist :=
        match st.StatusHistory with
        | none => []
        | some mh => (alookup mh σ.heap.maps).getD []
      let heap := { σ.heap with
        maps := aset m hist σ.heap.maps
        objs := aset r { st with StatusHistory := some m } σ.heap.objs
        next := σ.heap.next + 2 }
      (some r, { σ with heap := heap })

/-- Manager.GetTestRunState at the pointer level: returns the address of a
fresh copy, or none when the run is not tracked. -/
def hGetTestRunState (σ : HState) (runID : Int) : Option Nat × HState :=
  match alookup runID σ.states with
  | none => (none, σ)
  | some q => copyRecordObj σ q

/-- Manager.GetAllStates at the pointer level: one fresh copy per tracked
record. -/
def hGetAllStates (σ : HState) : List Nat × HState :=
  σ.states.foldl
    (fun acc p =>
      match copyRecordObj acc.2 p.2 with
      | (none, σ₂) => (acc.1, σ₂)
      | (some r, σ₂) => (acc.1 ++ [r], σ₂))
    ([], σ)

/-- The fully dereferenced value of a tracked record, as an external observer
sees it through the store. -/
structure RecordView where
  TestRunID : Int
  TestID : Int
  ProjectID : Int
  TestName : String
  CurrentStatus : String
  history : List (String × Int)
  LastUpdated : Int
  Created : Int
  endedVal : Option Int
  resultVal : Option String
  StartedBy : String
  VUH : Int
  deriving DecidableEq, Repr

/-- Read of a tracked record through the store, dereferencing every pointer. -/
def readRecord (σ : HState) (runID : Int) : Option RecordView :=
  match alookup runID σ.states with
  | none => none
  | some q =>
      match alookup q σ.heap.objs with
      | none => none
      | some o =>
          some {
            TestRunID := o.TestRunID
            TestID := o.TestID
            ProjectID := o.ProjectID
            TestName := o.TestName
            CurrentStatus := o.CurrentStatus
            history :=
              match o.StatusHistory with
              | none => []
              | some m => (alookup m σ.heap.maps).getD []
            LastUpdated := o.LastUpdated
            Created := o.Created
            endedVal :=
              match o.Ended with
              | none => none
              | some e => alookup e σ.heap.times
            resultVal :=
              match o.Result with
              | none => none
              | some r => alookup r σ.heap.strs
            StartedBy := o.StartedBy
            VUH := o.VUH }

/-- All addresses the store can reach are below `B`: the record object
addresses in `states`, and the map/time/string addresses inside those
objects. -/
def ReachBound (σ : HState) (B : Nat) : Prop :=
  ∀ p ∈ σ.states, p.2 < B ∧
    ∃ o, alookup p.2 σ.heap.objs = some o ∧
      (∀ m, o.StatusHistory = some m → m < B) ∧
      (∀ e, o.Ended = some e → e < B) ∧
      (∀ r, o.Result = some r → r < B)

/-- Heap well-formedness: the store reaches only allocated (below-`next`)
addresses. -/
def WfH (σ : HState) : Prop :=
  ReachBound σ σ.heap.next

/-- Writes at an address the store cannot reach are invisible to every store
read. -/
theorem readRecord_write_frame {σ : HState} {B : Nat} (h : ReachBound σ B)
    {a : Nat} (ha : B ≤ a) (id : Int) :
    (∀ o, readRecord (writeObj σ a o) id = readRecord σ id) ∧
    (∀ l, readRecord (writeMap σ a l) id = readRecord σ id) ∧
    (∀ x, readRecord (writeTime σ a x) id = readRecord σ id) ∧
    (∀ w, readRecord (writeStr σ a w) id = readRecord σ id) := by
  unfold readRecord writeObj writeMap writeTime writeStr
  dsimp only
  rcases hq : alookup id σ.states with _ | q
  · exact ⟨fun o => rfl, fun l => rfl, fun x => rfl, fun w => rfl⟩
  · rcases h (id, q) (alookup_mem hq) with ⟨hlt, o₀, ho₀, hm, he, hr⟩
    simp only at hlt ho₀
    have hqa : q ≠ a := by omega
    refine ⟨?_, ?_, ?_, ?_⟩
    · intro o
      dsimp only
      rw [alookup_aset_of_ne hqa]
    · intro l
      dsimp only
      rw [ho₀]
      dsimp only
      rcases hsh : o₀.StatusHistory with _ | m
      · rfl
      · have hma : m ≠ a := by have := hm m hsh; omega
        dsimp only
        rw [alookup_aset_of_ne hma]
    · intro x
      dsimp only
      rw [ho₀]
      dsimp only
      rcases hsh : o₀.Ended with _ | e
      · rfl
      · have hea : e ≠ a := by have := he e hsh; omega
        dsimp only
        rw [alookup_aset_of_ne hea]
    · intro w
      dsimp only
      rw [ho₀]
      dsimp only
      rcases hsh : o₀.Result with _ | r
      · rfl
      · have hra : r ≠ a := by have := hr r hsh; omega
        dsimp only
        rw [alookup_aset_of_ne hra]

/-- Taking a copy allocates only fresh cells: the store's reach bound is
preserved, the allocation counter grows, the tracked-run map is untouched,
and the returned address is fresh. -/
theorem copyRecordObj_frame {σ : HState} {B : Nat} (h : ReachBound σ B)
    (hB : B ≤ σ.heap.next) (q : Nat) :
    ReachBound (copyRecordObj σ q).2 B ∧
    B ≤ (copyRecordObj σ q).2.heap.next ∧
    (copyRecordObj σ q).2.states = σ.states ∧
    σ.heap.next ≤ (copyRecordObj σ q).2.heap.next ∧
    (∀ r, (copyRecordObj σ q).1 = some r → σ.heap.next ≤ r) := by
  unfold copyRecordObj
  rcases hst : alookup q σ.heap.objs with _ | st
  · exact ⟨h, hB, rfl, le_refl _, by intro r hr; cases hr⟩
  · dsimp only
    refine ⟨?_, by omega, rfl, by omega, ?_⟩
    · intro p hp
      rcases h p hp with ⟨hlt, o, ho, hm, he, hr⟩
      refine ⟨hlt, o, ?_, hm, he, hr⟩
      have hne : p.2 ≠ σ.heap.next + 1 := by omega
      rw [alookup_aset_of_ne hne]
      exact ho
    · intro r hr
      have : σ.heap.next + 1 = r := Option.some_inj.mp hr
      omega

theorem hGetTestRunState_frame {σ : HState} {B : Nat} (h : ReachBound σ B)
    (hB : B ≤ σ.heap.next) (runID : Int) :
    ReachBound (hGetTestRunState σ runID).2 B ∧
    B ≤ (hGetTestRunState σ runID).2.heap.next ∧
    (∀ r, (hGetTestRunState σ runID).1 = some r → σ.heap.next ≤ r) := by
  unfold hGetTestRunState
  rcases hq : alookup runID σ.states with _ | q
  · exact ⟨h, hB, by intro r hr; cases hr⟩
  · rcases copyRecordObj_frame h hB q with ⟨h1, h2, _, _, h5⟩
    exact ⟨h1, h2, h5⟩

theorem hGetAllStates_frame {σ : HState} {B : Nat} (h : ReachBound σ B)
    (hB : B ≤ σ.heap.next) :
    ReachBound (hGetAllStates σ).2 B ∧
    B ≤ (hGetAllStates σ).2.heap.next ∧
    (∀ r ∈ (hGetAllStates σ).1, σ.heap.next ≤ r) := by
  unfold hGetAllStates
  have hgen : ∀ (l : List (Int × Nat)) (acc : List Nat × HState),
      ReachBound acc.2 B → B ≤ acc.2.heap.next →
      σ.heap.next ≤ acc.2.heap.next → (∀ r ∈ acc.1, σ.heap.next ≤ r) →
      ReachBound (l.foldl
        (fun acc p =>
          match copyRecordObj acc.2 p.2 with
          | (none, σ₂) => (acc.1, σ₂)
          | (some r, σ₂) => (acc.1 ++ [r], σ₂)) acc).2 B ∧
      B ≤ (l.foldl
        (fun acc p =>
          match copyRecordObj acc.2 p.2 with
          | (none, σ₂) => (acc.1, σ₂)
          | (some r, σ₂) => (acc.1 ++ [r], σ₂)) acc).2.heap.next ∧
      (∀ r ∈ (l.foldl
        (fun acc p =>
          match copyRecordObj acc.2 p.2 with
          | (none, σ₂) => (acc.1, σ₂)
          | (some r, σ₂) => (acc.1 ++ [r], σ₂)) acc).1, σ.heap.next ≤ r) := by
    intro l
    induction l with
    | nil => intro acc h1 h2 h3 h4; exact ⟨h1, h2, h4⟩
    | cons p l ih =>
        intro acc h1 h2 h3 h4
        rcases copyRecordObj_frame h1 h2 p.2 with ⟨g1, g2, _, g4, g5⟩
        rcases hcp : copyRecordObj acc.2 p.2 with ⟨r?, σ₂⟩
        rw [hcp] at g1 g2 g4 g5
        cases r? with
        | none =>
            simp only [List.foldl_cons, hcp]
            exact ih (acc.1, σ₂) g1 g2 (le_trans h3 g4) h4
        | some r =>
            simp only [List.foldl_cons, hcp]
            refine ih (acc.1 ++ [r], σ₂) g1 g2 (le_trans h3 g4) ?_
            intro x hx
            rcases List.mem_append.mp hx with hx | hx
            · exact h4 x hx
            · rw [List.mem_singleton.mp hx]
              exact le_trans h3 (g5 r rfl)
  exact hgen σ.states ([], σ) h hB (le_refl _) (by intro r hr; cases hr)

/-- C4 (amended): records returned by `GetTestRunState` and `GetAllStates`
live at fresh addresses, and writes at any address the store cannot reach —
in particular overwriting a returned record's fields or mutating its
status-history map — leave every subsequent store read unchanged.  (The
end-time and result cells of a returned copy are shared with the store, and
on first insertion the store retains the caller's snapshot object itself;
mutations through those are exempted and do change reads.) -/
theorem heapCopy_mutation_frame (σ : HState) (hwf : WfH σ) (a : Nat)
    (ha : σ.heap.next ≤ a) :
    (∀ runID r, (hGetTestRunState σ runID).1 = some r → σ.heap.next ≤ r) ∧
    (∀ runID id o, readRecord (writeObj (hGetTestRunState σ runID).2 a o) id
        = readRecord (hGetTestRunState σ runID).2 id) ∧
    (∀ runID id l, readRecord (writeMap (hGetTestRunState σ runID).2 a l) id
        = readRecord (hGetTestRunState σ runID).2 id) ∧
    (∀ r ∈ (hGetAllStates σ).1, σ.heap.next ≤ r) ∧
    (∀ id o, readRecord (writeObj (hGetAllStates σ).2 a o) id
        = readRecord (hGetAllStates σ).2 id) ∧
    (∀ id l, readRecord (writeMap (hGetAllStates σ).2 a l) id
        = readRecord (hGetAllStates σ).2 id) := by
  have hone : ∀ runID, ReachBound (hGetTestRunState σ runID).2 σ.heap.next :=
    fun runID => (hGetTestRunState_frame hwf (le_refl _) runID).1
  have hall : ReachBound (hGetAllStates σ).2 σ.heap.next :=
    (hGetAllStates_frame hwf (le_refl _)).1
  refine ⟨?_, ?_, ?_, (hGetAllStates_frame hwf (le_refl _)).2.2, ?_, ?_⟩
  · intro runID r hr
    exact (hGetTestRunState_frame hwf (le_refl _) runID).2.2 r hr
  · intro runID id o
    exact (readRecord_write_frame (hone runID) ha id).1 o
  · intro runID id l
    exact (readRecord_write_frame (hone runID) ha id).2.1 l
  · intro id o
    exact (readRecord_write_frame hall ha id).1 o
  · intro id l
    exact (readRecord_write_frame hall ha id).2.1 l

/-- Snapshot object passed to `hUpdateTestRun` in the C4 counterexample. -/
def c4SnapObj : RObj :=
  { TestRunID := 1, TestID := 2, ProjectID := 3, TestName := "t",
    CurrentStatus := "created", StatusHistory := none, LastUpdated := 0,
    Created := 0, Ended := none, Result := none, StartedBy := "u", VUH := 0 }

/-- Heap holding only the caller's snapshot object, not yet tracked. -/
def c4σ0 : HState :=
  { heap :=
      { objs := [(0, c4SnapObj)]
        maps := []
        times := []
        strs := []
        next := 1 }
    states := [] }

/-- Store state after the first insertion of the snapshot. -/
def c4σ1 : HState :=
  hUpdateTestRun c4σ0 0 5

/-- The caller mutating its snapshot object after the call: it sets
`CurrentStatus` to "running" (the other fields as the update left them). -/
def c4Mut : RObj :=
  { c4SnapObj with
    StatusHistory := some 1
    LastUpdated := 5
    CurrentStatus := "running" }

/-- A tracked record whose end time lives in a time cell. -/
def c4RecObj : RObj :=
  { TestRunID := 1, TestID := 2, ProjectID := 3, TestName := "t",
    CurrentStatus := "running", StatusHistory := none, LastUpdated := 0,
    Created := 0, Ended := some 0, Result := none, StartedBy := "u", VUH := 0 }

/-- Store tracking `c4RecObj`, with its end-time cell holding 99. -/
def c4σg : HState :=
  { heap :=
      { objs := [(1, c4RecObj)]
        maps := []
        times := [(0, 99)]
        strs := []
        next := 2 }
    states := [(1, 1)] }

/-- Counterexample to C4 as stated: after `UpdateTestRun` has inserted a
snapshot, mutating the snapshot object the caller passed in changes a
subsequent store read (the store retained the caller's pointer); and
writing through the end-time pointer of a record returned by
`GetTestRunState` also changes a subsequent store read (the copy shares the
cell). -/
theorem heap_alias_cex :
    readRecord (writeObj c4σ1 0 c4Mut) 1 ≠ readRecord c4σ1 1 ∧
    (hGetTestRunState c4σg 1).1 = some 3 ∧
    readRecord (writeTime (hGetTestRunState c4σg 1).2 0 42) 1
      ≠ readRecord (hGetTestRunState c4σg 1).2 1 :=
  ⟨by decide, by decide, by decide⟩

theorem WfH_c4σg : WfH c4σg := by
  intro p hp
  simp only [c4σg, List.mem_singleton] at hp
  subst hp
  refine ⟨by decide, c4RecObj, by decide, ?_, ?_, ?_⟩
  · intro m hm
    rw [show c4RecObj.StatusHistory = none from rfl] at hm
    cases hm
  · intro e he
    rw [show c4RecObj.Ended = some 0 from rfl] at he
    have h0 : (0 : Nat) = e := Option.some_inj.mp he
    show e < 2
    omega
  · intro r hr
    rw [show c4RecObj.Result = none from rfl] at hr
    cases hr

/-- Concrete instantiation of `heapCopy_mutation_frame`: overwriting the
object returned by `GetTestRunState` (allocated at address 3) does not
change the store's read of run 1. -/
theorem heapCopy_mutation_frame_witness :
    readRecord (writeObj (hGetTestRunState c4σg 1).2 3 c4SnapObj) 1
      = readRecord (hGetTestRunState c4σg 1).2 1 :=
  (heapCopy_mutation_frame c4σg WfH_c4σg 3 (by decide)).2.1 1 1 c4SnapObj

end GK6
